import Mathlib

/-!
Shallow embedding of the chunked card-pattern extraction engine of
`src/app.py` (`extract_card_details_chunked`, `validate_card_format`,
`process_large_text`).

Conventions of the embedding:
* Python strings are modelled as `List Char`; `str.split('|')` is `splitPipe`,
  `str.rstrip()` is `rstrip`, `str.strip()` is `pyStrip`, `int(...)` on a
  digit string is `toNatL`, `str.isdigit()` is `isdigitL`.
* The character classes of the `re` module are modelled on their ASCII
  fragment: `\d` is `Char.isDigit`, `\w` is `isWordChar`
  (ASCII alphanumeric or underscore), `\s` is `pyIsSpace`
  (space, tab, newline, carriage return, vertical tab, form feed).
* Each of the three regular expressions of the source is compiled by hand
  into a matcher `Option Char → List Char → Option Nat` that, given the
  previous character (for the word boundary `\b`) and the remaining text,
  returns the length of the match starting here, resolving greediness and
  backtracking exactly as Python's engine does on that pattern.
  `findall` then reproduces `re.findall`: scan left to right, emit the
  leftmost match, continue right after it, advance one character on failure.
* The generator is modelled as the list of its yields, in order; the
  process-lifetime `seen` set is a list threaded through the scan.
* `process_large_text` drives the generator; its `except` branch is modelled
  by an explicit event stream (`SweepEvent`) in which an exception may be
  injected at any point of the sweep.
-/

/-! ### Character classes (ASCII fragment of Python's `re` classes) -/

def isWordChar (c : Char) : Bool :=
  c.isAlphanum || c = '_'

def pyIsSpace (c : Char) : Bool :=
  c = ' ' || c = '\t' || c = '\n' || c = '\r' || c = '\x0b' || c = '\x0c'

/-! ### Python string operations -/

/-- Model of `str.split('|')`: `"a|b|".split('|') = ["a","b",""]`. -/
def splitPipe : List Char → List (List Char)
  | [] => [[]]
  | c :: rest =>
    if c = '|' then [] :: splitPipe rest
    else
      match splitPipe rest with
      | p :: ps => (c :: p) :: ps
      | [] => [[c]]

/-- Model of `str.rstrip()`: drop trailing whitespace. -/
def rstrip (l : List Char) : List Char :=
  (l.reverse.dropWhile pyIsSpace).reverse

/-- Model of `str.strip()`: drop leading and trailing whitespace. -/
def pyStrip (l : List Char) : List Char :=
  rstrip (l.dropWhile pyIsSpace)

/-- Model of `str.isdigit()`: nonempty and all digits. -/
def isdigitL (l : List Char) : Bool :=
  !l.isEmpty && l.all Char.isDigit

/-- Model of `int(...)` on a digit string. -/
def toNatL (l : List Char) : Nat :=
  l.foldl (fun a c => 10 * a + (c.toNat - 48)) 0

/-! ### `validate_card_format` (src/app.py lines 69-123) -/

inductive FormatType
  | with_cvv
  | no_cvv
  | trailing
deriving DecidableEq

/-- The body of `validate_card_format` after `parts = card_detail.split('|')`:
field checks on `parts[0] / parts[1] / parts[2]`, then the format-specific
check. -/
def validateParts (parts : List (List Char)) (format_type : FormatType) : Bool :=
  if parts.length < 3 then false
  else if !(isdigitL (parts.getD 0 []) && (parts.getD 0 []).length == 16) then false
  else if !(isdigitL (parts.getD 1 []) && (parts.getD 1 []).length == 2
            && decide (1 ≤ toNatL (parts.getD 1 []))
            && decide (toNatL (parts.getD 1 []) ≤ 12)) then false
  else if !(isdigitL (parts.getD 2 []) && (parts.getD 2 []).length == 4
            && decide (2020 ≤ toNatL (parts.getD 2 []))
            && decide (toNatL (parts.getD 2 []) ≤ 2040)) then false
  else
    match format_type with
    | .with_cvv =>
      if parts.length ≠ 4 then false
      else isdigitL (parts.getD 3 [])
        && ((parts.getD 3 []).length == 3 || (parts.getD 3 []).length == 4)
    | .no_cvv =>
      if parts.length ≠ 4 then false
      else
        -- Python: `if cvv.strip(): return False` then `return True`
        (pyStrip (parts.getD 3 [])).isEmpty
    | .trailing =>
      decide (4 ≤ parts.length)

def validate_card_format (card_detail : List Char) (format_type : FormatType) : Bool :=
  validateParts (splitPipe card_detail) format_type

/-! ### Matchers for the three regular expressions

`card_pattern_with_cvv = r'\b\d{16}\|\d{2}\|\d{4}\|\d{3,4}\b'`
`card_pattern_no_cvv   = r'\b\d{16}\|\d{2}\|\d{4}\|\s*(?=\s|$|[^\d])'`
`card_pattern_trailing = r'\b\d{16}\|\d{2}\|\d{4}\|\s+[^(\n\r]*'`
-/

/-- Consume exactly `k` digits, returning the remainder. -/
def parseNDigits : Nat → List Char → Option (List Char)
  | 0, l => some l
  | _ + 1, [] => none
  | k + 1, c :: rest => if c.isDigit then parseNDigits k rest else none

/-- Consume one literal `'|'`. -/
def parseBar : List Char → Option (List Char)
  | [] => none
  | c :: rest => if c = '|' then some rest else none

/-- Consume the shared stem `\d{16}\|\d{2}\|\d{4}\|` of all three patterns. -/
def parseCardStem (l : List Char) : Option (List Char) :=
  ((((parseNDigits 16 l).bind parseBar).bind (parseNDigits 2)).bind parseBar
    |>.bind (parseNDigits 4)).bind parseBar

/-- Tail `\d{3,4}\b`: greedy (4 digits preferred), backtracking to 3 when the
word boundary after the 4th digit fails, as Python's engine does. -/
def tailWithCvv : List Char → Option Nat
  | d1 :: d2 :: d3 :: rest3 =>
    if d1.isDigit && d2.isDigit && d3.isDigit then
      match rest3 with
      | [] => some 3
      | d4 :: rest4 =>
        if d4.isDigit then
          match rest4 with
          | [] => some 4
          | c5 :: _ => if isWordChar c5 then none else some 4
        else
          if isWordChar d4 then none else some 3
    else none
  | _ => none

def countLeading (p : Char → Bool) (l : List Char) : Nat :=
  (l.takeWhile p).length

/-- Tail `\s*(?=\s|$|[^\d])`: greedy whitespace, then the lookahead; when the
character after the maximal whitespace run is a digit the engine gives back
one whitespace character so that the `\s` alternative of the lookahead holds
(impossible when the run is empty). -/
def tailNoCvv (rest : List Char) : Option Nat :=
  match rest.drop (countLeading pyIsSpace rest) with
  | [] => some (countLeading pyIsSpace rest)
  | c :: _ =>
    if c.isDigit then
      (if countLeading pyIsSpace rest = 0 then none
       else some (countLeading pyIsSpace rest - 1))
    else some (countLeading pyIsSpace rest)

/-- Tail `\s+[^(\n\r]*`: one or more whitespace characters (newlines
included), then a maximal run free of `'('`, `'\n'`, `'\r'`. -/
def tailTrailing (rest : List Char) : Option Nat :=
  if countLeading pyIsSpace rest = 0 then none
  else some (countLeading pyIsSpace rest
    + countLeading (fun c => !(c = '(' || c = '\n' || c = '\r'))
        (rest.drop (countLeading pyIsSpace rest)))

/-- Word boundary `\b` before a digit: the previous character (if any) is not
a word character. -/
def boundaryOk : Option Char → Bool
  | none => true
  | some c => !isWordChar c

/-- Try to match one of the three patterns at the current position. -/
def tryFam (tail : List Char → Option Nat) (prev : Option Char) (l : List Char) : Option Nat :=
  if boundaryOk prev then
    match parseCardStem l with
    | some rest => (tail rest).map (fun t => (l.length - rest.length) + t)
    | none => none
  else none

def tryWithCvv : Option Char → List Char → Option Nat := tryFam tailWithCvv
def tryNoCvv : Option Char → List Char → Option Nat := tryFam tailNoCvv
def tryTrailing : Option Char → List Char → Option Nat := tryFam tailTrailing

/-- Scanner of `re.findall`: leftmost match, continue right after it, advance
one character on failure.  The fuel argument (instantiated with the length of
the text, which every step strictly decreases) makes the recursion
structural. -/
def findallAux (tm : Option Char → List Char → Option Nat) :
    Nat → Option Char → List Char → List (List Char)
  | 0, _, _ => []
  | _ + 1, _, [] => []
  | fuel + 1, prev, c :: rest =>
    match tm prev (c :: rest) with
    | some (n + 1) =>
      (c :: rest).take (n + 1) ::
        findallAux tm fuel ((c :: rest)[n]?) ((c :: rest).drop (n + 1))
    | _ => findallAux tm fuel (some c) rest

def findall (tm : Option Char → List Char → Option Nat) (l : List Char) : List (List Char) :=
  findallAux tm l.length none l

/-! ### The chunked scan (src/app.py lines 30-67) -/

structure ScanState where
  seen : List (List Char)
  out : List (List Char)

/-- Loop over matches of `card_pattern_with_cvv` (lines 38-41). -/
def runWithCvv : List (List Char) → ScanState → ScanState
  | [], st => st
  | m :: ms, st =>
    if m ∉ st.seen ∧ validate_card_format m FormatType.with_cvv = true then
      runWithCvv ms ⟨st.seen ++ [m], st.out ++ [m]⟩
    else
      runWithCvv ms st

/-- Loop over matches of `card_pattern_trailing` (lines 46-56). -/
def runTrailing : List (List Char) → ScanState → ScanState
  | [], st => st
  | m :: ms, st =>
    let clean_match := rstrip m
    let parts := splitPipe clean_match
    if 4 ≤ parts.length then
      let card_key := List.intercalate ['|'] (parts.take 3) ++ ['|']
      if card_key ∉ st.seen ∧ validate_card_format clean_match FormatType.trailing = true then
        runTrailing ms ⟨st.seen ++ [card_key], st.out ++ [clean_match]⟩
      else
        runTrailing ms st
    else
      runTrailing ms st

/-- Loop over matches of `card_pattern_no_cvv` (lines 61-67). -/
def runNoCvv : List (List Char) → ScanState → ScanState
  | [], st => st
  | m :: ms, st =>
    let c0 := rstrip m
    let clean_match := if c0.getLast? = some '|' then c0 else c0 ++ ['|']
    if clean_match ∉ st.seen ∧ validate_card_format clean_match FormatType.no_cvv = true then
      runNoCvv ms ⟨st.seen ++ [clean_match], st.out ++ [clean_match]⟩
    else
      runNoCvv ms st

/-- One chunk: with-CVV matches first, then (flag-gated) trailing-info
matches, then (flag-gated) no-CVV matches. -/
def runChunkGated (chunk : List Char) (include_trailing_info : Bool)
    (st : ScanState) : ScanState :=
  if include_trailing_info then
    runTrailing (findall tryTrailing chunk) (runWithCvv (findall tryWithCvv chunk) st)
  else
    runWithCvv (findall tryWithCvv chunk) st

def runChunk (chunk : List Char) (include_no_cvv include_trailing_info : Bool)
    (st : ScanState) : ScanState :=
  if include_no_cvv then
    runNoCvv (findall tryNoCvv chunk) (runChunkGated chunk include_trailing_info st)
  else
    runChunkGated chunk include_trailing_info st

/-- Starts of the chunks: `range(0, len(text), chunk_size)`. -/
def chunkStarts (n cs : Nat) : List Nat :=
  (List.range ((n + cs - 1) / cs)).map (· * cs)

/-- Fold of `runChunk` over the chunk windows; each window is
`text[i : i + chunk_size + 300]`. -/
def runChunks (text : List Char) (cs : Nat) (include_no_cvv include_trailing_info : Bool) :
    List Nat → ScanState → ScanState
  | [], st => st
  | i :: is, st =>
    runChunks text cs include_no_cvv include_trailing_info is
      (runChunk ((text.drop i).take (cs + 300)) include_no_cvv include_trailing_info st)

/-- The generator `extract_card_details_chunked`, as the ordered list of its
yields. -/
def extract_card_details_chunked (text : List Char) (chunk_size : Nat)
    (include_no_cvv include_trailing_info : Bool) : List (List Char) :=
  (runChunks text chunk_size include_no_cvv include_trailing_info
    (chunkStarts text.length chunk_size) ⟨[], []⟩).out

/-! ### `process_large_text` (src/app.py lines 125-158)

The generator of the pure embedding cannot raise; the `try/except` of the
source is modelled over an explicit event stream in which an exception may be
injected at any point of the sweep, the `yield` events carrying the cards the
generator produced before it. -/

inductive SweepEvent
  | yieldCard : List Char → SweepEvent
  | raiseExc : SweepEvent

/-- The accumulation loop of `process_large_text`: count every card, write it
to the download buffer, keep only the first `max_display_results` for
display; an exception discards everything accumulated and returns empty
results (lines 151-153). -/
def processEventsGo (max_display_results : Nat) :
    List SweepEvent → List (List Char) → Nat → List Char →
      List (List Char) × Nat × List Char
  | [], display_results, total_count, download_buffer =>
    (display_results, total_count, download_buffer)
  | .yieldCard card :: rest, display_results, total_count, download_buffer =>
    processEventsGo max_display_results rest
      (if display_results.length < max_display_results
       then display_results ++ [card] else display_results)
      (total_count + 1)
      (download_buffer ++ card ++ ['\n'])
  | .raiseExc :: _, _, _, _ => ([], 0, [])

def processEvents (events : List SweepEvent) (max_display_results : Nat) :
    List (List Char) × Nat × List Char :=
  processEventsGo max_display_results events [] 0 []

def process_large_text (text : List Char) (include_no_cvv include_trailing_info : Bool)
    (max_display_results : Nat) : List (List Char) × Nat × List Char :=
  processEvents
    ((extract_card_details_chunked text 10000 include_no_cvv include_trailing_info).map
      SweepEvent.yieldCard)
    max_display_results

/-! ### Shape classifiers and the deduplication key -/

/-- A 3-or-4-digit CVV field. -/
def isCvvField (p : List Char) : Bool :=
  (!p.isEmpty && p.all Char.isDigit) && (p.length == 3 || p.length == 4)

/-- Exactly 4 pipe-delimited fields with a 3-4 digit fourth field. -/
def isWithCvvShape (s : List Char) : Bool :=
  (splitPipe s).length == 4 && isCvvField ((splitPipe s).getD 3 [])

/-- Exactly 4 pipe-delimited fields with an empty fourth field. -/
def isNoCvvShape (s : List Char) : Bool :=
  (splitPipe s).length == 4 && ((splitPipe s).getD 3 []).isEmpty

/-- At least 4 fields, with genuine trailing content. -/
def isTrailingShape (s : List Char) : Bool :=
  decide (4 ≤ (splitPipe s).length) && !isWithCvvShape s && !isNoCvvShape s

/-- The 3-field canonical `number|month|year|` key. -/
def cardKey (s : List Char) : List Char :=
  List.intercalate ['|'] ((splitPipe s).take 3) ++ ['|']

/-- The deduplication key of an emitted string: the string itself for the
with-CVV family, the 3-field canonical key otherwise. -/
def keyOf (s : List Char) : List Char :=
  if isWithCvvShape s then s else cardKey s

/-- A full with-CVV match: stem plus a 3-or-4 digit CVV, and nothing else. -/
def isCardToken (w : List Char) : Bool :=
  match parseCardStem w with
  | some rest => (!rest.isEmpty && rest.all Char.isDigit)
      && (rest.length == 3 || rest.length == 4)
  | none => false

def endsDigitB (s : List Char) : Bool :=
  match s.getLast? with
  | some c => c.isDigit
  | none => false

/-- The text of an output after its third pipe, with the leading whitespace
run (the separator matched by `\s+` or `\s*` of the patterns) removed: the
free-text run of the output. -/
def freeTextRun (o : List Char) : List Char :=
  (List.intercalate ['|'] ((splitPipe o).drop 3)).dropWhile pyIsSpace

/-! ### Basic lemmas about the string operations -/

theorem digit_not_pipe {c : Char} (h : c.isDigit = true) : ¬ c = '|' := by
  intro hc; subst hc; simp [Char.isDigit] at h

theorem splitPipe_no_pipe (a : List Char) (h : '|' ∉ a) : splitPipe a = [a] := by
  induction a with
  | nil => rfl
  | cons c rest ih =>
    have hc : ¬ c = '|' := fun hc => h (hc ▸ List.mem_cons_self c rest)
    have hr : '|' ∉ rest := fun hm => h (List.mem_cons_of_mem c hm)
    simp [splitPipe, hc, ih hr]

theorem splitPipe_append_pipe (a r : List Char) (h : '|' ∉ a) :
    splitPipe (a ++ '|' :: r) = a :: splitPipe r := by
  induction a with
  | nil => simp [splitPipe]
  | cons c rest ih =>
    have hc : ¬ c = '|' := fun hc => h (hc ▸ List.mem_cons_self c rest)
    have hr : '|' ∉ rest := fun hm => h (List.mem_cons_of_mem c hm)
    simp [splitPipe, hc, ih hr]

theorem intercalate_three (a b c : List Char) :
    List.intercalate ['|'] [a, b, c] = a ++ '|' :: (b ++ '|' :: c) := by
  simp [List.intercalate, List.intersperse]

/-! ### Parsing lemmas -/

theorem parseNDigits_append (k : Nat) (d r : List Char) (hlen : d.length = k)
    (hd : ∀ c ∈ d, c.isDigit = true) : parseNDigits k (d ++ r) = some r := by
  induction d generalizing k with
  | nil => subst hlen; rfl
  | cons c rest ih =>
    subst hlen
    have hc : c.isDigit = true := hd c (List.mem_cons_self c rest)
    simp only [List.length_cons, List.cons_append, parseNDigits, hc, if_true]
    exact ih rest.length rfl (fun x hx => hd x (List.mem_cons_of_mem c hx))

theorem parseNDigits_eq_some (k : Nat) (l r : List Char)
    (h : parseNDigits k l = some r) :
    ∃ d, l = d ++ r ∧ d.length = k ∧ ∀ c ∈ d, c.isDigit = true := by
  induction k generalizing l with
  | zero =>
    refine ⟨[], ?_, rfl, by simp⟩
    simpa [parseNDigits] using h
  | succ k ih =>
    cases l with
    | nil => simp [parseNDigits] at h
    | cons c rest =>
      by_cases hc : c.isDigit = true
      · simp only [parseNDigits, hc, if_true] at h
        obtain ⟨d, hdr, hlen, hall⟩ := ih rest h
        exact ⟨c :: d, by simp [hdr], by simp [hlen], by
          intro x hx
          rcases List.mem_cons.mp hx with hx | hx
          · exact hx ▸ hc
          · exact hall x hx⟩
      · simp [parseNDigits, hc] at h

theorem parseBar_eq_some (l r : List Char) :
    parseBar l = some r ↔ l = '|' :: r := by
  cases l with
  | nil => simp [parseBar]
  | cons c rest =>
    by_cases hc : c = '|'
    · subst hc; simp [parseBar]
    · simp [parseBar, hc]

theorem parseBar_cons_pipe (r : List Char) : parseBar ('|' :: r) = some r := by
  simp [parseBar]

/-- The stem `\d{16}\|\d{2}\|\d{4}\|` as a structural property. -/
def StemShape (s : List Char) : Prop :=
  ∃ n m y : List Char,
    s = n ++ '|' :: (m ++ '|' :: (y ++ ['|'])) ∧
    n.length = 16 ∧ (∀ c ∈ n, c.isDigit = true) ∧
    m.length = 2 ∧ (∀ c ∈ m, c.isDigit = true) ∧
    y.length = 4 ∧ (∀ c ∈ y, c.isDigit = true)

theorem StemShape.length {s : List Char} (h : StemShape s) : s.length = 25 := by
  obtain ⟨n, m, y, hs, hn, _, hm, _, hy, _⟩ := h
  subst hs; simp [hn, hm, hy]

theorem parseCardStem_complete (s X : List Char) (h : StemShape s) :
    parseCardStem (s ++ X) = some X := by
  obtain ⟨n, m, y, hs, hn, hnd, hm, hmd, hy, hyd⟩ := h
  subst hs
  have e1 : (n ++ '|' :: (m ++ '|' :: (y ++ ['|']))) ++ X
      = n ++ '|' :: (m ++ '|' :: (y ++ '|' :: X)) := by simp
  rw [e1]
  unfold parseCardStem
  rw [parseNDigits_append 16 n _ hn hnd, Option.some_bind, parseBar_cons_pipe,
    Option.some_bind, parseNDigits_append 2 m _ hm hmd, Option.some_bind,
    parseBar_cons_pipe, Option.some_bind, parseNDigits_append 4 y _ hy hyd,
    Option.some_bind, parseBar_cons_pipe]

theorem parseCardStem_eq_some (l rest : List Char) (h : parseCardStem l = some rest) :
    ∃ s, l = s ++ rest ∧ StemShape s := by
  unfold parseCardStem at h
  rw [Option.bind_eq_some] at h
  obtain ⟨r5, h5, hbar3⟩ := h
  rw [Option.bind_eq_some] at h5
  obtain ⟨r4, h4, hdig4⟩ := h5
  rw [Option.bind_eq_some] at h4
  obtain ⟨r3, h3, hbar2⟩ := h4
  rw [Option.bind_eq_some] at h3
  obtain ⟨r2, h2, hdig2⟩ := h3
  rw [Option.bind_eq_some] at h2
  obtain ⟨r1, h1, hbar1⟩ := h2
  obtain ⟨n, hln, hn16, hnd⟩ := parseNDigits_eq_some 16 l r1 h1
  rw [parseBar_eq_some] at hbar1
  obtain ⟨m, hlm, hm2, hmd⟩ := parseNDigits_eq_some 2 r2 r3 hdig2
  rw [parseBar_eq_some] at hbar2
  obtain ⟨y, hly, hy4, hyd⟩ := parseNDigits_eq_some 4 r4 r5 hdig4
  rw [parseBar_eq_some] at hbar3
  refine ⟨n ++ '|' :: (m ++ '|' :: (y ++ ['|'])), ?_, n, m, y, rfl, hn16, hnd, hm2, hmd, hy4, hyd⟩
  subst hbar3 hly hbar2 hlm hbar1 hln
  simp

/-! ### Lemmas about `rstrip` -/

theorem rstrip_append_spaces (x W : List Char) (hW : ∀ c ∈ W, pyIsSpace c = true) :
    rstrip (x ++ W) = rstrip x := by
  unfold rstrip
  rw [List.reverse_append, List.dropWhile_append]
  have : W.reverse.dropWhile pyIsSpace = [] := by
    rw [List.dropWhile_eq_nil_iff]
    intro c hc
    exact hW c (List.mem_reverse.mp hc)
  simp [this]

theorem rstrip_snoc_nonspace (x : List Char) (c : Char) (hc : pyIsSpace c = false) :
    rstrip (x ++ [c]) = x ++ [c] := by
  unfold rstrip
  rw [List.reverse_append]
  simp [List.dropWhile, hc]

theorem exists_rstrip (l : List Char) :
    ∃ d, l = rstrip l ++ d ∧ ∀ c ∈ d, pyIsSpace c = true := by
  refine ⟨(l.reverse.takeWhile pyIsSpace).reverse, ?_, ?_⟩
  · unfold rstrip
    rw [← List.reverse_append, List.takeWhile_append_dropWhile, List.reverse_reverse]
  · intro c hc
    exact List.mem_takeWhile_imp (List.mem_reverse.mp hc)

theorem rstrip_sub (l : List Char) : ∀ c ∈ rstrip l, c ∈ l := by
  intro c hc
  obtain ⟨d, hd, _⟩ := exists_rstrip l
  rw [hd]
  exact List.mem_append_left d hc

/-! ### Shape facts about stems -/

theorem StemShape.no_pipe_runs {n : List Char} (hnd : ∀ c ∈ n, c.isDigit = true) :
    '|' ∉ n := by
  intro hmem
  exact digit_not_pipe (hnd '|' hmem) rfl

theorem stem_splitPipe (s V : List Char) (h : StemShape s) :
    ∃ n m y, splitPipe (s ++ V) = n :: m :: y :: splitPipe V ∧
      s = n ++ '|' :: (m ++ '|' :: (y ++ ['|'])) ∧
      n.length = 16 ∧ (∀ c ∈ n, c.isDigit = true) ∧
      m.length = 2 ∧ (∀ c ∈ m, c.isDigit = true) ∧
      y.length = 4 ∧ (∀ c ∈ y, c.isDigit = true) := by
  obtain ⟨n, m, y, hs, hn, hnd, hm, hmd, hy, hyd⟩ := h
  refine ⟨n, m, y, ?_, hs, hn, hnd, hm, hmd, hy, hyd⟩
  subst hs
  have e : (n ++ '|' :: (m ++ '|' :: (y ++ ['|']))) ++ V
      = n ++ '|' :: (m ++ '|' :: (y ++ '|' :: V)) := by simp
  rw [e, splitPipe_append_pipe n _ (StemShape.no_pipe_runs hnd),
    splitPipe_append_pipe m _ (StemShape.no_pipe_runs hmd),
    splitPipe_append_pipe y _ (StemShape.no_pipe_runs hyd)]

theorem stem_cardKey (s V : List Char) (h : StemShape s) : cardKey (s ++ V) = s := by
  obtain ⟨n, m, y, hsp, hs, _⟩ := stem_splitPipe s V h
  unfold cardKey
  rw [hsp]
  simp only [List.take_succ_cons, List.take_zero]
  rw [intercalate_three n m y]
  rw [hs]
  simp

theorem stem_rstrip (s : List Char) (h : StemShape s) : rstrip s = s := by
  obtain ⟨n, m, y, hs, _⟩ := h
  subst hs
  have e : n ++ '|' :: (m ++ '|' :: (y ++ ['|']))
      = (n ++ '|' :: (m ++ '|' :: y)) ++ ['|'] := by simp
  rw [e, rstrip_snoc_nonspace]
  rfl

theorem stem_getLast (s : List Char) (h : StemShape s) : s.getLast? = some '|' := by
  obtain ⟨n, m, y, hs, _⟩ := h
  subst hs
  have e : n ++ '|' :: (m ++ '|' :: (y ++ ['|']))
      = (n ++ '|' :: (m ++ '|' :: y)) ++ ['|'] := by simp
  rw [e, List.getLast?_concat]

theorem stem_splitPipe_self (s : List Char) (h : StemShape s) :
    ∃ n m y, splitPipe s = [n, m, y, []] ∧
      s = n ++ '|' :: (m ++ '|' :: (y ++ ['|'])) := by
  obtain ⟨n, m, y, hsp, hs, _⟩ := stem_splitPipe s [] h
  refine ⟨n, m, y, ?_, hs⟩
  simp only [List.append_nil] at hsp
  rw [hsp]
  rfl

theorem stem_not_withCvvShape (s : List Char) (h : StemShape s) :
    isWithCvvShape s = false := by
  obtain ⟨n, m, y, hsp, _⟩ := stem_splitPipe_self s h
  unfold isWithCvvShape
  rw [hsp]
  simp [isCvvField]

theorem stem_cardKey_self (s : List Char) (h : StemShape s) : cardKey s = s := by
  have := stem_cardKey s [] h
  simpa using this

theorem stem_keyOf (s : List Char) (h : StemShape s) : keyOf s = s := by
  unfold keyOf
  rw [stem_not_withCvvShape s h]
  simp [stem_cardKey_self s h]

/-! ### Characterization of `findall` matches -/

theorem findallAux_cons_eq (tm : Option Char → List Char → Option Nat)
    (fuel : Nat) (prev : Option Char) (c : Char) (rest : List Char) (n : Nat)
    (h : tm prev (c :: rest) = some (n + 1)) :
    findallAux tm (fuel + 1) prev (c :: rest)
      = (c :: rest).take (n + 1) ::
          findallAux tm fuel ((c :: rest)[n]?) ((c :: rest).drop (n + 1)) := by
  simp [findallAux, h]

theorem findallAux_cons_fail (tm : Option Char → List Char → Option Nat)
    (fuel : Nat) (prev : Option Char) (c : Char) (rest : List Char)
    (h : tm prev (c :: rest) = none) :
    findallAux tm (fuel + 1) prev (c :: rest) = findallAux tm fuel (some c) rest := by
  simp [findallAux, h]

theorem findallAux_cons_zero (tm : Option Char → List Char → Option Nat)
    (fuel : Nat) (prev : Option Char) (c : Char) (rest : List Char)
    (h : tm prev (c :: rest) = some 0) :
    findallAux tm (fuel + 1) prev (c :: rest) = findallAux tm fuel (some c) rest := by
  simp [findallAux, h]

theorem mem_findallAux (tm : Option Char → List Char → Option Nat) :
    ∀ (fuel : Nat) (prev : Option Char) (l m : List Char), m ∈ findallAux tm fuel prev l →
      ∃ prev' l' n, tm prev' l' = some (n + 1) ∧ m = l'.take (n + 1) := by
  intro fuel
  induction fuel with
  | zero => intro prev l m h; simp [findallAux] at h
  | succ fuel ih =>
    intro prev l m h
    cases l with
    | nil => simp [findallAux] at h
    | cons c rest =>
      rcases h' : tm prev (c :: rest) with _ | k
      · rw [findallAux_cons_fail tm fuel prev c rest h'] at h
        exact ih _ _ _ h
      · cases k with
        | zero =>
          rw [findallAux_cons_zero tm fuel prev c rest h'] at h
          exact ih _ _ _ h
        | succ n =>
          rw [findallAux_cons_eq tm fuel prev c rest n h'] at h
          rcases List.mem_cons.mp h with h | h
          · exact ⟨prev, c :: rest, n, h', h⟩
          · exact ih _ _ _ h

theorem mem_findall (tm : Option Char → List Char → Option Nat) (l m : List Char)
    (h : m ∈ findall tm l) :
    ∃ prev' l' n, tm prev' l' = some (n + 1) ∧ m = l'.take (n + 1) :=
  mem_findallAux tm l.length none l m h

theorem tryFam_eq_some (tail : List Char → Option Nat) (prev : Option Char)
    (l : List Char) (k : Nat) (h : tryFam tail prev l = some k) :
    ∃ s rest t, l = s ++ rest ∧ StemShape s ∧ tail rest = some t ∧ k = 25 + t := by
  unfold tryFam at h
  split at h
  case isFalse => cases h
  split at h
  case h_2 => cases h
  case h_1 rest hps =>
    rw [Option.map_eq_some'] at h
    obtain ⟨t, htail, hk⟩ := h
    obtain ⟨s, hl, hs⟩ := parseCardStem_eq_some l rest hps
    refine ⟨s, rest, t, hl, hs, htail, ?_⟩
    have hlen : l.length = 25 + rest.length := by
      rw [hl, List.length_append, hs.length]
    omega

theorem take_match_split (s rest : List Char) (t : Nat) (hs : s.length = 25)
    (_ht : t ≤ rest.length) :
    (s ++ rest).take (25 + t) = s ++ rest.take t := by
  rw [List.take_append_eq_append_take, List.take_of_length_le (by omega)]
  congr 2
  omega

/-! ### Tail characterizations -/

theorem take_all_of_le_takeWhile (p : Char → Bool) (l : List Char) (t : Nat)
    (h : t ≤ (l.takeWhile p).length) : ∀ c ∈ l.take t, p c = true := by
  intro c hc
  have hsplit : l = l.takeWhile p ++ l.dropWhile p := (List.takeWhile_append_dropWhile p l).symm
  rw [hsplit, List.take_append_eq_append_take] at hc
  rw [show t - (l.takeWhile p).length = 0 by omega] at hc
  simp only [List.take_zero, List.append_nil] at hc
  exact List.mem_takeWhile_imp (List.mem_of_mem_take hc)

theorem takeWhile_length_le (p : Char → Bool) (l : List Char) :
    (l.takeWhile p).length ≤ l.length := by
  induction l with
  | nil => simp
  | cons c l ih =>
    by_cases hc : p c = true
    · simp only [List.takeWhile_cons, hc, if_true, List.length_cons]
      omega
    · simp [List.takeWhile_cons, hc]

theorem take_takeWhile_length (p : Char → Bool) (l : List Char) :
    l.take ((l.takeWhile p).length) = l.takeWhile p := by
  have h := List.takeWhile_append_dropWhile p l
  calc l.take ((l.takeWhile p).length)
      = (l.takeWhile p ++ l.dropWhile p).take ((l.takeWhile p).length) := by rw [h]
    _ = l.takeWhile p := List.take_left _ _

theorem tailWithCvv_eq_some : ∀ (rest : List Char) (t : Nat), tailWithCvv rest = some t →
    (t = 3 ∨ t = 4) ∧ t ≤ rest.length ∧ ∀ c ∈ rest.take t, c.isDigit = true
  | [], t, h => by simp [tailWithCvv] at h
  | [_], t, h => by simp [tailWithCvv] at h
  | [_, _], t, h => by simp [tailWithCvv] at h
  | d1 :: d2 :: d3 :: rest3, t, h => by
    have htake3 : d1.isDigit = true → d2.isDigit = true → d3.isDigit = true →
        ∀ c ∈ (d1 :: d2 :: d3 :: rest3).take 3, c.isDigit = true := by
      intro h1 h2 h3 c hc
      simp only [List.take_succ_cons, List.take_zero, List.mem_cons,
        List.not_mem_nil, or_false] at hc
      rcases hc with rfl | rfl | rfl <;> assumption
    cases rest3 with
    | nil =>
      simp only [tailWithCvv] at h
      split at h
      case isFalse => cases h
      case isTrue hdig =>
        rw [Bool.and_eq_true, Bool.and_eq_true] at hdig
        injection h with ht; subst ht
        exact ⟨Or.inl rfl, by simp, htake3 hdig.1.1 hdig.1.2 hdig.2⟩
    | cons d4 rest4 =>
      simp only [tailWithCvv] at h
      split at h
      case isFalse => cases h
      case isTrue hdig =>
        rw [Bool.and_eq_true, Bool.and_eq_true] at hdig
        obtain ⟨⟨h1, h2⟩, h3⟩ := hdig
        by_cases h4 : d4.isDigit = true
        · rw [if_pos h4] at h
          have htake4 : ∀ c ∈ (d1 :: d2 :: d3 :: d4 :: rest4).take 4, c.isDigit = true := by
            intro c hc
            simp only [List.take_succ_cons, List.take_zero, List.mem_cons,
              List.not_mem_nil, or_false] at hc
            rcases hc with rfl | rfl | rfl | rfl <;> assumption
          cases rest4 with
          | nil =>
            injection h with ht; subst ht
            exact ⟨Or.inr rfl, by simp, htake4⟩
          | cons c5 rest5 =>
            have h' : (if isWordChar c5 = true then none else some 4) = some t := h
            by_cases h5 : isWordChar c5 = true
            · rw [if_pos h5] at h'; cases h'
            · rw [if_neg h5] at h'
              injection h' with ht; subst ht
              exact ⟨Or.inr rfl, by simp, htake4⟩
        · rw [if_neg h4] at h
          by_cases hw : isWordChar d4 = true
          · rw [if_pos hw] at h; cases h
          · rw [if_neg hw] at h
            injection h with ht; subst ht
            exact ⟨Or.inl rfl, by simp, htake3 h1 h2 h3⟩

theorem tailNoCvv_eq_some (rest : List Char) (t : Nat) (h : tailNoCvv rest = some t) :
    t ≤ rest.length ∧ ∀ c ∈ rest.take t, pyIsSpace c = true := by
  have hkle : countLeading pyIsSpace rest ≤ rest.length := takeWhile_length_le pyIsSpace rest
  unfold tailNoCvv at h
  split at h
  case h_1 =>
    injection h with ht; subst ht
    exact ⟨hkle, take_all_of_le_takeWhile pyIsSpace rest _ le_rfl⟩
  case h_2 =>
    split at h
    case isTrue =>
      split at h
      case isTrue => cases h
      case isFalse =>
        injection h with ht; subst ht
        exact ⟨by omega, take_all_of_le_takeWhile pyIsSpace rest _ (by
          unfold countLeading; omega)⟩
    case isFalse =>
      injection h with ht; subst ht
      exact ⟨hkle, take_all_of_le_takeWhile pyIsSpace rest _ le_rfl⟩

theorem tailTrailing_eq_some (rest : List Char) (t : Nat) (h : tailTrailing rest = some t) :
    ∃ W T, rest.take t = W ++ T ∧ W ≠ [] ∧ (∀ c ∈ W, pyIsSpace c = true) ∧
      (∀ c ∈ T, c ≠ '(' ∧ c ≠ '\n' ∧ c ≠ '\r') ∧ t ≤ rest.length := by
  unfold tailTrailing at h
  split at h
  case isTrue => cases h
  case isFalse hk0 =>
    injection h with ht
    have hkle : countLeading pyIsSpace rest ≤ rest.length := takeWhile_length_le pyIsSpace rest
    have hjle : countLeading (fun c => !(c = '(' || c = '\n' || c = '\r'))
        (rest.drop (countLeading pyIsSpace rest))
        ≤ rest.length - countLeading pyIsSpace rest := by
      calc countLeading (fun c => !(c = '(' || c = '\n' || c = '\r'))
            (rest.drop (countLeading pyIsSpace rest))
          ≤ (rest.drop (countLeading pyIsSpace rest)).length :=
            takeWhile_length_le _ _
        _ = rest.length - countLeading pyIsSpace rest := List.length_drop _ _
    refine ⟨rest.take (countLeading pyIsSpace rest),
      (rest.drop (countLeading pyIsSpace rest)).take
        (countLeading (fun c => !(c = '(' || c = '\n' || c = '\r'))
          (rest.drop (countLeading pyIsSpace rest))), ?_, ?_, ?_, ?_, by omega⟩
    · rw [← ht, List.take_add]
    · have hlen : (rest.take (countLeading pyIsSpace rest)).length
          = countLeading pyIsSpace rest := by
        rw [List.length_take]; omega
      intro hnil
      rw [hnil] at hlen
      simp at hlen
      omega
    · exact take_all_of_le_takeWhile pyIsSpace rest _ le_rfl
    · intro c hc
      have := take_all_of_le_takeWhile (fun c => !(c = '(' || c = '\n' || c = '\r'))
        (rest.drop (countLeading pyIsSpace rest)) _ le_rfl c hc
      simp only [Bool.not_eq_true', Bool.or_eq_false_iff, decide_eq_false_iff_not] at this
      exact ⟨this.1.1, this.1.2, this.2⟩

/-! ### Facts about with-CVV tokens -/

theorem getLast?_mem_of_ne_nil (l : List Char) (h : l ≠ []) :
    ∃ c, l.getLast? = some c ∧ c ∈ l :=
  ⟨l.getLast h, List.getLast?_eq_getLast l h, List.getLast_mem h⟩

theorem isCardToken_complete (s cv : List Char) (hs : StemShape s) (hne : cv ≠ [])
    (hdig : ∀ c ∈ cv, c.isDigit = true) (hlen : cv.length = 3 ∨ cv.length = 4) :
    isCardToken (s ++ cv) = true := by
  have h1 : isCardToken (s ++ cv)
      = ((!cv.isEmpty && cv.all Char.isDigit) && (cv.length == 3 || cv.length == 4)) := by
    unfold isCardToken
    rw [parseCardStem_complete s cv hs]
  rw [h1]
  simp only [Bool.and_eq_true, Bool.or_eq_true, beq_iff_eq, Bool.not_eq_true']
  refine ⟨⟨?_, ?_⟩, ?_⟩
  · cases cv with
    | nil => exact absurd rfl hne
    | cons _ _ => rfl
  · rw [List.all_eq_true]; exact hdig
  · rcases hlen with h | h <;> simp [h]

theorem isCardToken_eq_true (w : List Char) (h : isCardToken w = true) :
    ∃ s cv, w = s ++ cv ∧ StemShape s ∧ cv ≠ [] ∧ (∀ c ∈ cv, c.isDigit = true) ∧
      (cv.length = 3 ∨ cv.length = 4) := by
  unfold isCardToken at h
  split at h
  case h_2 => cases h
  case h_1 rest heq =>
    obtain ⟨s, hw, hs⟩ := parseCardStem_eq_some w rest heq
    simp only [Bool.and_eq_true, Bool.or_eq_true, beq_iff_eq, Bool.not_eq_true'] at h
    refine ⟨s, rest, hw, hs, ?_, ?_, ?_⟩
    · intro hn
      rw [hn] at h
      simp at h
    · rw [List.all_eq_true] at h
      exact fun c hc => h.1.2 c hc
    · exact h.2

theorem StemShape.mem_chars {s : List Char} (h : StemShape s) :
    ∀ c ∈ s, c.isDigit = true ∨ c = '|' := by
  obtain ⟨n, m, y, hs, _, hnd, _, hmd, _, hyd⟩ := h
  subst hs
  intro c hc
  simp only [List.mem_append, List.mem_cons, List.mem_singleton,
    List.not_mem_nil, or_false] at hc
  rcases hc with hc | hc | hc | hc | hc | hc
  · exact Or.inl (hnd c hc)
  · exact Or.inr hc
  · exact Or.inl (hmd c hc)
  · exact Or.inr hc
  · exact Or.inl (hyd c hc)
  · exact Or.inr hc

theorem cardToken_withCvvShape (w : List Char) (h : isCardToken w = true) :
    isWithCvvShape w = true := by
  obtain ⟨s, cv, hw, hs, hne, hdig, hlen⟩ := isCardToken_eq_true w h
  subst hw
  obtain ⟨n, m, y, hsp, _⟩ := stem_splitPipe s cv hs
  have hcv : splitPipe cv = [cv] :=
    splitPipe_no_pipe cv (fun hm => digit_not_pipe (hdig '|' hm) rfl)
  unfold isWithCvvShape
  rw [hsp, hcv]
  have hred : ((n :: m :: y :: [cv]).length == 4
        && isCvvField ((n :: m :: y :: [cv]).getD 3 []))
      = (true && isCvvField cv) := rfl
  rw [hred, Bool.true_and]
  unfold isCvvField
  simp only [Bool.and_eq_true, Bool.or_eq_true, beq_iff_eq, Bool.not_eq_true']
  refine ⟨⟨?_, ?_⟩, ?_⟩
  · cases cv with
    | nil => exact absurd rfl hne
    | cons _ _ => rfl
  · rw [List.all_eq_true]; exact hdig
  · rcases hlen with h | h <;> simp [h]

theorem cardToken_keyOf (w : List Char) (h : isCardToken w = true) : keyOf w = w := by
  unfold keyOf
  rw [cardToken_withCvvShape w h]
  simp

theorem cardToken_endsDigit (w : List Char) (h : isCardToken w = true) :
    endsDigitB w = true := by
  obtain ⟨s, cv, hw, _, hne, hdig, _⟩ := isCardToken_eq_true w h
  subst hw
  obtain ⟨c, hc, hcm⟩ := getLast?_mem_of_ne_nil cv hne
  unfold endsDigitB
  rw [List.getLast?_append_of_ne_nil s hne, hc]
  exact hdig c hcm

theorem endsDigit_cardKey_false (x : List Char) : endsDigitB (cardKey x) = false := by
  unfold endsDigitB cardKey
  rw [List.getLast?_concat]
  rfl

theorem cardToken_length (w : List Char) (h : isCardToken w = true) :
    28 ≤ w.length ∧ w.length ≤ 29 := by
  obtain ⟨s, cv, hw, hs, _, _, hlen⟩ := isCardToken_eq_true w h
  subst hw
  rw [List.length_append, hs.length]
  rcases hlen with h | h <;> omega

theorem cardToken_no_paren (w : List Char) (h : isCardToken w = true) : '(' ∉ w := by
  obtain ⟨s, cv, hw, hs, _, hdig, _⟩ := isCardToken_eq_true w h
  subst hw
  intro hm
  rcases List.mem_append.mp hm with hm | hm
  · rcases hs.mem_chars '(' hm with hd | hd
    · simp [Char.isDigit] at hd
    · cases hd
  · have := hdig '(' hm
    simp [Char.isDigit] at this

/-! ### Shapes of the matches of each pattern -/

theorem mem_findall_withCvv (l m : List Char) (h : m ∈ findall tryWithCvv l) :
    isCardToken m = true := by
  obtain ⟨prev, l', n, htm, hm⟩ := mem_findall tryWithCvv l m h
  obtain ⟨s, rest, t, hl, hs, htail, hk⟩ := tryFam_eq_some tailWithCvv prev l' (n + 1) htm
  obtain ⟨ht34, htle, hdig⟩ := tailWithCvv_eq_some rest t htail
  have hmk : m = s ++ rest.take t := by
    rw [hm, hl, hk, take_match_split s rest t hs.length htle]
  rw [hmk]
  apply isCardToken_complete s (rest.take t) hs
  · have : (rest.take t).length = t := by rw [List.length_take]; omega
    intro hn
    rw [hn] at this
    simp at this
    omega
  · exact hdig
  · have : (rest.take t).length = t := by rw [List.length_take]; omega
    rw [this]
    exact ht34

theorem mem_findall_noCvv (l m : List Char) (h : m ∈ findall tryNoCvv l) :
    ∃ s W, m = s ++ W ∧ StemShape s ∧ ∀ c ∈ W, pyIsSpace c = true := by
  obtain ⟨prev, l', n, htm, hm⟩ := mem_findall tryNoCvv l m h
  obtain ⟨s, rest, t, hl, hs, htail, hk⟩ := tryFam_eq_some tailNoCvv prev l' (n + 1) htm
  obtain ⟨htle, hsp⟩ := tailNoCvv_eq_some rest t htail
  refine ⟨s, rest.take t, ?_, hs, hsp⟩
  rw [hm, hl, hk, take_match_split s rest t hs.length htle]

theorem mem_findall_trailing (l m : List Char) (h : m ∈ findall tryTrailing l) :
    ∃ s W T, m = s ++ (W ++ T) ∧ StemShape s ∧ W ≠ [] ∧ (∀ c ∈ W, pyIsSpace c = true) ∧
      ∀ c ∈ T, c ≠ '(' ∧ c ≠ '\n' ∧ c ≠ '\r' := by
  obtain ⟨prev, l', n, htm, hm⟩ := mem_findall tryTrailing l m h
  obtain ⟨s, rest, t, hl, hs, htail, hk⟩ := tryFam_eq_some tailTrailing prev l' (n + 1) htm
  obtain ⟨W, T, htake, hWne, hWsp, hT, htle⟩ := tailTrailing_eq_some rest t htail
  refine ⟨s, W, T, ?_, hs, hWne, hWsp, hT⟩
  rw [hm, hl, hk, take_match_split s rest t hs.length htle, htake]

/-! ### Cleaned matches of the trailing and no-CVV branches -/

theorem rstrip_append (x y : List Char) :
    rstrip (x ++ y) = if rstrip y = [] then rstrip x else x ++ rstrip y := by
  unfold rstrip
  rw [List.reverse_append, List.dropWhile_append]
  by_cases hy : (y.reverse.dropWhile pyIsSpace).isEmpty = true
  · rw [if_pos hy]
    have : (y.reverse.dropWhile pyIsSpace).reverse = [] := by
      rw [List.isEmpty_iff] at hy
      rw [hy]
      rfl
    rw [if_pos this]
  · rw [if_neg hy]
    have hne : (y.reverse.dropWhile pyIsSpace).reverse ≠ [] := by
      intro hc
      rw [List.isEmpty_iff] at hy
      exact hy (by simpa using congrArg List.reverse hc)
    rw [if_neg hne, List.reverse_append, List.reverse_reverse]

theorem splitPipe_ne_nil (l : List Char) : splitPipe l ≠ [] := by
  cases l with
  | nil => simp [splitPipe]
  | cons c rest =>
    unfold splitPipe
    by_cases hc : c = '|'
    · simp [hc]
    · rw [if_neg hc]
      split <;> simp

theorem intercalate_single (sep x : List Char) : List.intercalate sep [x] = x := by
  simp [List.intercalate]

theorem intercalate_cons_cons (sep x y : List Char) (zs : List (List Char)) :
    List.intercalate sep (x :: y :: zs) = x ++ sep ++ List.intercalate sep (y :: zs) := by
  simp [List.intercalate, List.intersperse]

/-- `'|'.join(s.split('|')) = s`: re-joining the pipe-split parts restores
the string. -/
theorem intercalate_splitPipe : ∀ V : List Char,
    List.intercalate ['|'] (splitPipe V) = V
  | [] => by simp [splitPipe, intercalate_single]
  | c :: rest => by
    obtain ⟨p, ps, hps⟩ := List.exists_cons_of_ne_nil (splitPipe_ne_nil rest)
    have hIH := intercalate_splitPipe rest
    by_cases hc : c = '|'
    · subst hc
      have hcv : splitPipe ('|' :: rest) = [] :: splitPipe rest := by
        simp [splitPipe]
      rw [hcv, hps, intercalate_cons_cons]
      rw [hps] at hIH
      rw [hIH]
      rfl
    · have hcv : splitPipe (c :: rest) = (c :: p) :: ps := by
        unfold splitPipe
        rw [if_neg hc, hps]
      rw [hcv]
      cases ps with
      | nil =>
        rw [intercalate_single]
        rw [hps, intercalate_single] at hIH
        rw [hIH]
      | cons q qs =>
        rw [intercalate_cons_cons]
        rw [hps, intercalate_cons_cons] at hIH
        have he : (c :: p) ++ ['|'] ++ List.intercalate ['|'] (q :: qs)
            = c :: (p ++ ['|'] ++ List.intercalate ['|'] (q :: qs)) := by simp
        rw [he, hIH]

theorem mem_of_mem_dropWhile (p : Char → Bool) (l : List Char) :
    ∀ c ∈ l.dropWhile p, c ∈ l := by
  intro c hc
  have h := List.takeWhile_append_dropWhile p l
  rw [← h]
  exact List.mem_append_right _ hc

theorem dropWhile_append_of_all (p : Char → Bool) (x y : List Char)
    (hx : ∀ c ∈ x, p c = true) : (x ++ y).dropWhile p = y.dropWhile p := by
  rw [List.dropWhile_append]
  have hnil : x.dropWhile p = [] := List.dropWhile_eq_nil_iff.mpr (fun c hc => hx c hc)
  simp [hnil]

theorem pyIsSpace_not_pipe {c : Char} (h : pyIsSpace c = true) : c ≠ '|' := by
  intro hc
  subst hc
  simp [pyIsSpace] at h

theorem pyIsSpace_not_digit {c : Char} (h : pyIsSpace c = true) : c.isDigit = false := by
  unfold pyIsSpace at h
  rcases Bool.or_eq_true _ _ |>.mp h with h' | h'
  · rcases Bool.or_eq_true _ _ |>.mp h' with h' | h'
    · rcases Bool.or_eq_true _ _ |>.mp h' with h' | h'
      · rcases Bool.or_eq_true _ _ |>.mp h' with h' | h'
        · rcases Bool.or_eq_true _ _ |>.mp h' with h' | h'
          · rw [decide_eq_true_iff] at h'; subst h'; rfl
          · rw [decide_eq_true_iff] at h'; subst h'; rfl
        · rw [decide_eq_true_iff] at h'; subst h'; rfl
      · rw [decide_eq_true_iff] at h'; subst h'; rfl
    · rw [decide_eq_true_iff] at h'; subst h'; rfl
  · rw [decide_eq_true_iff] at h'; subst h'; rfl

/-- A stem followed by a possibly-empty suffix whose first character is
whitespace is never with-CVV shaped. -/
theorem stem_space_not_withCvvShape (s V : List Char) (hs : StemShape s)
    (hV : V = [] ∨ ∃ c V', V = c :: V' ∧ pyIsSpace c = true) :
    isWithCvvShape (s ++ V) = false := by
  obtain ⟨n, m, y, hsp, _⟩ := stem_splitPipe s V hs
  unfold isWithCvvShape
  rw [hsp]
  rcases hV with rfl | ⟨c, V', rfl, hc⟩
  · have hred : ((n :: m :: y :: splitPipe []).length == 4
          && isCvvField ((n :: m :: y :: splitPipe []).getD 3 []))
        = (true && isCvvField []) := rfl
    rw [hred, Bool.true_and]
    rfl
  · obtain ⟨p, ps, hps⟩ := List.exists_cons_of_ne_nil (splitPipe_ne_nil V')
    have hcv : splitPipe (c :: V') = (c :: p) :: ps := by
      unfold splitPipe
      rw [if_neg (pyIsSpace_not_pipe hc), hps]
    rw [hcv]
    cases ps with
    | nil =>
      have hred : ((n :: m :: y :: [c :: p]).length == 4
            && isCvvField ((n :: m :: y :: [c :: p]).getD 3 []))
          = (true && isCvvField (c :: p)) := rfl
      rw [hred, Bool.true_and]
      unfold isCvvField
      have : (c :: p).all Char.isDigit = false := by
        rw [List.all_cons, pyIsSpace_not_digit hc, Bool.false_and]
      rw [this]
      rfl
    | cons q qs =>
      have : ((n :: m :: y :: (c :: p) :: q :: qs).length == 4) = false := by
        simp only [List.length_cons]
        rw [beq_eq_false_iff_ne]
        omega
      rw [this, Bool.false_and]

/-- Decomposition of the cleaned trailing match: a stem followed by a
possibly-empty suffix starting with whitespace. -/
theorem trailing_clean_decomp (m : List Char)
    (hm : ∃ s W T, m = s ++ (W ++ T) ∧ StemShape s ∧ W ≠ [] ∧
      (∀ c ∈ W, pyIsSpace c = true) ∧ ∀ c ∈ T, c ≠ '(' ∧ c ≠ '\n' ∧ c ≠ '\r') :
    ∃ s V, rstrip m = s ++ V ∧ StemShape s ∧
      (V = [] ∨ ∃ c V', V = c :: V' ∧ pyIsSpace c = true) := by
  obtain ⟨s, W, T, rfl, hs, hWne, hWsp, _⟩ := hm
  rw [rstrip_append]
  by_cases hV : rstrip (W ++ T) = []
  · rw [if_pos hV, stem_rstrip s hs]
    exact ⟨s, [], by simp, hs, Or.inl rfl⟩
  · rw [if_neg hV]
    refine ⟨s, rstrip (W ++ T), rfl, hs, Or.inr ?_⟩
    obtain ⟨v, V', hv⟩ := List.exists_cons_of_ne_nil hV
    refine ⟨v, V', hv, ?_⟩
    obtain ⟨d, hd, _⟩ := exists_rstrip (W ++ T)
    obtain ⟨wc, W', hw⟩ := List.exists_cons_of_ne_nil hWne
    have hhead : (W ++ T).head? = some wc := by
      rw [hw]; rfl
    rw [hd, hv] at hhead
    simp only [List.cons_append, List.head?_cons] at hhead
    injection hhead with hvw
    rw [hvw]
    exact hWsp wc (by rw [hw]; exact List.mem_cons_self wc W')

/-- The cleaned and normalized no-CVV match is exactly its stem. -/
theorem noCvv_clean (m : List Char)
    (hm : ∃ s W, m = s ++ W ∧ StemShape s ∧ ∀ c ∈ W, pyIsSpace c = true) :
    ∃ s, StemShape s ∧ rstrip m = s ∧
      (if (rstrip m).getLast? = some '|' then rstrip m else rstrip m ++ ['|']) = s := by
  obtain ⟨s, W, rfl, hs, hWsp⟩ := hm
  have hr : rstrip (s ++ W) = s := by
    rw [rstrip_append_spaces s W hWsp, stem_rstrip s hs]
  refine ⟨s, hs, hr, ?_⟩
  rw [hr, if_pos (stem_getLast s hs)]

/-! ### The scan-state invariant: the seen set is exactly the list of keys of
the emitted outputs, without duplicates, and no output contains `'('`. -/

def TrailMatchShape (m : List Char) : Prop :=
  ∃ s W T, m = s ++ (W ++ T) ∧ StemShape s ∧ W ≠ [] ∧
    (∀ c ∈ W, pyIsSpace c = true) ∧ ∀ c ∈ T, c ≠ '(' ∧ c ≠ '\n' ∧ c ≠ '\r'

def NoCvvMatchShape (m : List Char) : Prop :=
  ∃ s W, m = s ++ W ∧ StemShape s ∧ ∀ c ∈ W, pyIsSpace c = true

/-- The free-text run of a full with-CVV token lies inside its CVV digits,
so it contains no newline and no carriage return. -/
theorem cardToken_freeText (w : List Char) (h : isCardToken w = true) :
    ∀ c ∈ freeTextRun w, c ≠ '\n' ∧ c ≠ '\r' := by
  obtain ⟨s, cv, rfl, hs, hne, hdig, hlen⟩ := isCardToken_eq_true w h
  obtain ⟨n, m, y, hsp, _⟩ := stem_splitPipe s cv hs
  have hcv : splitPipe cv = [cv] :=
    splitPipe_no_pipe cv (fun hm => digit_not_pipe (hdig '|' hm) rfl)
  unfold freeTextRun
  rw [hsp, hcv, show (n :: m :: y :: [cv]).drop 3 = [cv] from rfl, intercalate_single]
  intro c hc
  have hcd := hdig c (mem_of_mem_dropWhile pyIsSpace cv c hc)
  constructor
  · intro he
    subst he
    simp [Char.isDigit] at hcd
  · intro he
    subst he
    simp [Char.isDigit] at hcd

/-- The free-text run of a bare stem is empty. -/
theorem stem_freeText (s : List Char) (hs : StemShape s) : freeTextRun s = [] := by
  obtain ⟨n, m, y, hsp, _⟩ := stem_splitPipe_self s hs
  unfold freeTextRun
  rw [hsp, show ([n, m, y, ([] : List Char)]).drop 3 = [[]] from rfl, intercalate_single]
  rfl

/-- The free-text run of a cleaned trailing match avoids newlines and
carriage returns: whatever survives the leading whitespace run lies inside
the `[^(\n\r]*` part of the match. -/
theorem trailing_clean_freeText (m : List Char) (hm : TrailMatchShape m) :
    ∀ c ∈ freeTextRun (rstrip m), c ≠ '\n' ∧ c ≠ '\r' := by
  obtain ⟨s, W, T, rfl, hs, hWne, hWsp, hT⟩ := hm
  rw [rstrip_append]
  by_cases hV : rstrip (W ++ T) = []
  · rw [if_pos hV, stem_rstrip s hs, stem_freeText s hs]
    intro c hc
    exact absurd hc (List.not_mem_nil c)
  · rw [if_neg hV]
    have hfr : freeTextRun (s ++ rstrip (W ++ T))
        = (rstrip (W ++ T)).dropWhile pyIsSpace := by
      unfold freeTextRun
      obtain ⟨n, m', y, hsp, _⟩ := stem_splitPipe s (rstrip (W ++ T)) hs
      rw [hsp, show (n :: m' :: y :: splitPipe (rstrip (W ++ T))).drop 3
          = splitPipe (rstrip (W ++ T)) from rfl, intercalate_splitPipe]
    rw [hfr]
    obtain ⟨d, hd, _⟩ := exists_rstrip (W ++ T)
    rcases List.append_eq_append_iff.mp hd with ⟨u, hu1, hu2⟩ | ⟨u, hu1, hu2⟩
    · -- the kept part extends past the whitespace: rstrip (W ++ T) = W ++ u, T = u ++ d
      rw [hu1, dropWhile_append_of_all pyIsSpace W u hWsp]
      intro c hc
      have hcu : c ∈ u := mem_of_mem_dropWhile pyIsSpace u c hc
      have hcT : c ∈ T := by
        rw [hu2]
        exact List.mem_append_left d hcu
      exact ⟨(hT c hcT).2.1, (hT c hcT).2.2⟩
    · -- the kept part sits inside the all-whitespace run: everything drops
      have hall : ∀ c ∈ rstrip (W ++ T), pyIsSpace c = true := by
        intro c hc
        exact hWsp c (by rw [hu1]; exact List.mem_append_left u hc)
      rw [List.dropWhile_eq_nil_iff.mpr (fun c hc => hall c hc)]
      intro c hc
      exact absurd hc (List.not_mem_nil c)

def ScanInv (st : ScanState) : Prop :=
  st.seen = st.out.map keyOf ∧ st.seen.Nodup ∧ (∀ o ∈ st.out, '(' ∉ o) ∧
    ∀ o ∈ st.out, ∀ c ∈ freeTextRun o, c ≠ '\n' ∧ c ≠ '\r'

theorem stem_no_paren (s : List Char) (hs : StemShape s) : '(' ∉ s := by
  intro hm
  rcases hs.mem_chars '(' hm with hd | hd
  · simp [Char.isDigit] at hd
  · cases hd

theorem emit_inv (st : ScanState) (o k : List Char) (hk : k = keyOf o) (hmem : k ∉ st.seen)
    (hpar : '(' ∉ o) (hfree : ∀ c ∈ freeTextRun o, c ≠ '\n' ∧ c ≠ '\r')
    (h : ScanInv st) : ScanInv ⟨st.seen ++ [k], st.out ++ [o]⟩ := by
  obtain ⟨h1, h2, h3, h4⟩ := h
  refine ⟨?_, ?_, ?_, ?_⟩
  · simp only [List.map_append, List.map_cons, List.map_nil]
    rw [← h1, hk]
  · rw [List.nodup_append]
    refine ⟨h2, List.nodup_singleton k, ?_⟩
    intro a ha hb
    rw [List.mem_singleton] at hb
    exact hmem (hb ▸ ha)
  · intro o' ho'
    rcases List.mem_append.mp ho' with ho' | ho'
    · exact h3 o' ho'
    · rw [List.mem_singleton] at ho'
      exact ho' ▸ hpar
  · intro o' ho'
    rcases List.mem_append.mp ho' with ho' | ho'
    · exact h4 o' ho'
    · rw [List.mem_singleton] at ho'
      exact ho' ▸ hfree

theorem runWithCvv_inv : ∀ (ms : List (List Char)) (st : ScanState),
    (∀ m ∈ ms, isCardToken m = true) → ScanInv st → ScanInv (runWithCvv ms st)
  | [], _, _, h => h
  | m :: ms, st, hms, h => by
    have hm := hms m (List.mem_cons_self m ms)
    have hms' := fun x hx => hms x (List.mem_cons_of_mem m hx)
    simp only [runWithCvv]
    by_cases hg : m ∉ st.seen ∧ validate_card_format m FormatType.with_cvv = true
    · rw [if_pos hg]
      exact runWithCvv_inv ms _ hms'
        (emit_inv st m m (cardToken_keyOf m hm).symm hg.1 (cardToken_no_paren m hm)
          (cardToken_freeText m hm) h)
    · rw [if_neg hg]
      exact runWithCvv_inv ms st hms' h

theorem trailing_clean_no_paren (m : List Char) (hm : TrailMatchShape m) :
    '(' ∉ rstrip m := by
  intro hp
  have hpm := rstrip_sub m '(' hp
  obtain ⟨s, W, T, hmeq, hs, _, hWsp, hT⟩ := hm
  rw [hmeq] at hpm
  rcases List.mem_append.mp hpm with hpm | hpm
  · exact stem_no_paren s hs hpm
  · rcases List.mem_append.mp hpm with hpm | hpm
    · have := hWsp '(' hpm
      simp [pyIsSpace] at this
    · exact (hT '(' hpm).1 rfl

theorem runTrailing_inv : ∀ (ms : List (List Char)) (st : ScanState),
    (∀ m ∈ ms, TrailMatchShape m) → ScanInv st → ScanInv (runTrailing ms st)
  | [], _, _, h => h
  | m :: ms, st, hms, h => by
    have hm := hms m (List.mem_cons_self m ms)
    have hms' := fun x hx => hms x (List.mem_cons_of_mem m hx)
    obtain ⟨s, V, hclean, hs, hV⟩ := trailing_clean_decomp m hm
    have hshape : isWithCvvShape (rstrip m) = false := by
      rw [hclean]; exact stem_space_not_withCvvShape s V hs hV
    have hkeyOf : keyOf (rstrip m) = cardKey (rstrip m) := by
      unfold keyOf; rw [hshape]; simp
    simp only [runTrailing]
    by_cases h4 : 4 ≤ (splitPipe (rstrip m)).length
    · rw [if_pos h4]
      by_cases hg : (List.intercalate ['|'] ((splitPipe (rstrip m)).take 3) ++ ['|']) ∉ st.seen
          ∧ validate_card_format (rstrip m) FormatType.trailing = true
      · rw [if_pos hg]
        refine runTrailing_inv ms _ hms' (emit_inv st (rstrip m) _ ?_ hg.1
          (trailing_clean_no_paren m hm) (trailing_clean_freeText m hm) h)
        rw [hkeyOf]
        rfl
      · rw [if_neg hg]
        exact runTrailing_inv ms st hms' h
    · rw [if_neg h4]
      exact runTrailing_inv ms st hms' h

theorem runNoCvv_inv : ∀ (ms : List (List Char)) (st : ScanState),
    (∀ m ∈ ms, NoCvvMatchShape m) → ScanInv st → ScanInv (runNoCvv ms st)
  | [], _, _, h => h
  | m :: ms, st, hms, h => by
    have hm := hms m (List.mem_cons_self m ms)
    have hms' := fun x hx => hms x (List.mem_cons_of_mem m hx)
    obtain ⟨s, hs, hr, hcl⟩ := noCvv_clean m hm
    simp only [runNoCvv]
    rw [hcl]
    by_cases hg : s ∉ st.seen ∧ validate_card_format s FormatType.no_cvv = true
    · rw [if_pos hg]
      exact runNoCvv_inv ms _ hms'
        (emit_inv st s s (stem_keyOf s hs).symm hg.1 (stem_no_paren s hs)
          (fun c hc => absurd (stem_freeText s hs ▸ hc) (List.not_mem_nil c)) h)
    · rw [if_neg hg]
      exact runNoCvv_inv ms st hms' h

theorem runChunkGated_inv (chunk : List Char) (b : Bool) (st : ScanState)
    (h : ScanInv st) : ScanInv (runChunkGated chunk b st) := by
  unfold runChunkGated
  have h1 := runWithCvv_inv (findall tryWithCvv chunk) st
    (fun m hm => mem_findall_withCvv chunk m hm) h
  split
  · exact runTrailing_inv _ _ (fun m hm => mem_findall_trailing chunk m hm) h1
  · exact h1

theorem runChunk_inv (chunk : List Char) (a b : Bool) (st : ScanState)
    (h : ScanInv st) : ScanInv (runChunk chunk a b st) := by
  unfold runChunk
  have h2 := runChunkGated_inv chunk b st h
  split
  · exact runNoCvv_inv _ _ (fun m hm => mem_findall_noCvv chunk m hm) h2
  · exact h2

theorem runChunks_inv (text : List Char) (cs : Nat) (a b : Bool) :
    ∀ (starts : List Nat) (st : ScanState), ScanInv st →
      ScanInv (runChunks text cs a b starts st)
  | [], _, h => h
  | i :: is, st, h =>
    runChunks_inv text cs a b is _ (runChunk_inv ((text.drop i).take (cs + 300)) a b st h)

/-- The key invariant of a full extraction: the emitted outputs have pairwise
distinct deduplication keys, none contains `'('`, and no free-text run
contains a newline or carriage return. -/
theorem extract_inv (text : List Char) (cs : Nat) (a b : Bool) :
    ((extract_card_details_chunked text cs a b).map keyOf).Nodup ∧
      (∀ o ∈ extract_card_details_chunked text cs a b, '(' ∉ o) ∧
      ∀ o ∈ extract_card_details_chunked text cs a b,
        ∀ c ∈ freeTextRun o, c ≠ '\n' ∧ c ≠ '\r' := by
  have h := runChunks_inv text cs a b (chunkStarts text.length cs) ⟨[], []⟩
    ⟨rfl, List.nodup_nil, by simp, by simp⟩
  obtain ⟨h1, h2, h3, h4⟩ := h
  unfold extract_card_details_chunked
  exact ⟨h1 ▸ h2, h3, h4⟩

/-! ### Shape classification helpers -/

theorem trailingShape_not_withCvv (s : List Char) (h : isTrailingShape s = true) :
    isWithCvvShape s = false := by
  unfold isTrailingShape at h
  rw [Bool.and_eq_true, Bool.and_eq_true] at h
  have := h.1.2
  rwa [Bool.not_eq_true'] at this

theorem noCvvShape_not_withCvv (s : List Char) (h : isNoCvvShape s = true) :
    isWithCvvShape s = false := by
  unfold isNoCvvShape at h
  rw [Bool.and_eq_true] at h
  obtain ⟨hlen, hemp⟩ := h
  unfold isWithCvvShape
  rw [hlen, Bool.true_and]
  unfold isCvvField
  rw [List.isEmpty_iff] at hemp
  rw [hemp]
  rfl

theorem keyOf_eq_cardKey_of_not_withCvv (s : List Char) (h : isWithCvvShape s = false) :
    keyOf s = cardKey s := by
  unfold keyOf
  rw [h]
  simp

/-- C1: for every input text, chunk size and flag setting, the extractor
never emits the same string twice; in particular the with-CVV and no-CVV
output subsets contain no two textually identical strings, and no two
outputs of the trailing-info subset share the same `number|month|year|`
canonical prefix, because one seen-key set spans all chunks, keyed by the
full normalized string for the with-CVV and no-CVV families and by the
3-field canonical prefix for the trailing family. -/
theorem c1_dedup_invariant (text : List Char) (chunk_size : Nat)
    (include_no_cvv include_trailing_info : Bool) :
    (extract_card_details_chunked text chunk_size include_no_cvv include_trailing_info).Nodup ∧
    ((extract_card_details_chunked text chunk_size include_no_cvv
        include_trailing_info).filter isWithCvvShape).Nodup ∧
    ((extract_card_details_chunked text chunk_size include_no_cvv
        include_trailing_info).filter isNoCvvShape).Nodup ∧
    (((extract_card_details_chunked text chunk_size include_no_cvv
        include_trailing_info).filter isTrailingShape).map cardKey).Nodup := by
  obtain ⟨h1, _⟩ := extract_inv text chunk_size include_no_cvv include_trailing_info
  have hout : (extract_card_details_chunked text chunk_size include_no_cvv
      include_trailing_info).Nodup := h1.of_map
  refine ⟨hout, hout.filter _, hout.filter _, ?_⟩
  have hsub : List.Sublist
      (((extract_card_details_chunked text chunk_size include_no_cvv
        include_trailing_info).filter isTrailingShape).map keyOf)
      ((extract_card_details_chunked text chunk_size include_no_cvv
        include_trailing_info).map keyOf) :=
    List.Sublist.map keyOf (List.filter_sublist _)
  have hnd := h1.sublist hsub
  have hmap : ((extract_card_details_chunked text chunk_size include_no_cvv
        include_trailing_info).filter isTrailingShape).map cardKey
      = ((extract_card_details_chunked text chunk_size include_no_cvv
        include_trailing_info).filter isTrailingShape).map keyOf := by
    apply List.map_congr_left
    intro o ho
    have hsh := List.of_mem_filter ho
    exact (keyOf_eq_cardKey_of_not_withCvv o (trailingShape_not_withCvv o hsh)).symm
  rw [hmap]
  exact hnd

/-- C9: with both flags enabled the trailing-info and no-CVV families
mutually suppress each other per card identity: the trailing dedup key
`number|month|year|` coincides with a normalized no-CVV output string in the
single shared seen set, so no trailing-info output and no no-CVV output ever
share the same `number|month|year|` canonical prefix, in either order of
emission. -/
theorem c9_mutual_suppression (text : List Char) (chunk_size : Nat) :
    List.Pairwise (fun a b =>
      (isTrailingShape a = true → isNoCvvShape b = true → cardKey a ≠ cardKey b) ∧
      (isNoCvvShape a = true → isTrailingShape b = true → cardKey a ≠ cardKey b))
      (extract_card_details_chunked text chunk_size true true) := by
  obtain ⟨h1, _⟩ := extract_inv text chunk_size true true
  unfold List.Nodup at h1
  rw [List.pairwise_map] at h1
  refine h1.imp ?_
  intro a b hne
  constructor
  · intro ha hb hck
    apply hne
    rw [keyOf_eq_cardKey_of_not_withCvv a (trailingShape_not_withCvv a ha),
      keyOf_eq_cardKey_of_not_withCvv b (noCvvShape_not_withCvv b hb), hck]
  · intro ha hb hck
    apply hne
    rw [keyOf_eq_cardKey_of_not_withCvv a (noCvvShape_not_withCvv a ha),
      keyOf_eq_cardKey_of_not_withCvv b (trailingShape_not_withCvv b hb), hck]

/-- C8: the extraction is a deterministic function of its arguments: running
the extractor twice on identical input text, chunk size and flags yields the
identical ordered output sequence.  In the embedding the scan is a pure
function of `(text, chunk_size, flags)` — it reads no other state — so the
two runs are literally the same value. -/
theorem c8_deterministic (text : List Char) (chunk_size : Nat)
    (include_no_cvv include_trailing_info : Bool) :
    extract_card_details_chunked text chunk_size include_no_cvv include_trailing_info
      = extract_card_details_chunked text chunk_size include_no_cvv include_trailing_info :=
  rfl

/-- C7: with `include_no_cvv = true`, the input `4111111111111111|01|2025|`
yields exactly that single output string: the trailing pipe is preserved and
not duplicated, because the normalization appends `'|'` only when the cleaned
match does not already end with one. -/
theorem c7_trailing_pipe_preserved :
    extract_card_details_chunked ("4111111111111111|01|2025|".toList) 10000 true false
      = ["4111111111111111|01|2025|".toList] := by
  decide

/-- C6: if an exception is raised at any point of the chunk sweep inside
`process_large_text`, the call returns an empty display list, a zero total
count and an empty download buffer: everything accumulated before the
exception is discarded. -/
theorem c6_exception_discards_partial (events : List SweepEvent) (max_display_results : Nat)
    (h : SweepEvent.raiseExc ∈ events) :
    processEvents events max_display_results = ([], 0, []) := by
  unfold processEvents
  suffices hgen : ∀ (evs : List SweepEvent) (disp : List (List Char)) (total : Nat)
      (buf : List Char), SweepEvent.raiseExc ∈ evs →
      processEventsGo max_display_results evs disp total buf = ([], 0, []) from
    hgen events [] 0 [] h
  intro evs
  induction evs with
  | nil => intro _ _ _ hmem; cases hmem
  | cons e rest ih =>
    intro disp total buf hmem
    cases e with
    | yieldCard card =>
      have hrest : SweepEvent.raiseExc ∈ rest := by
        rcases List.mem_cons.mp hmem with hc | hc
        · cases hc
        · exact hc
      simp only [processEventsGo]
      exact ih _ _ _ hrest
    | raiseExc => rfl

theorem c6_witness :
    SweepEvent.raiseExc ∈ [SweepEvent.yieldCard ("4111111111111111|01|2025|123".toList),
        SweepEvent.raiseExc] ∧
      processEvents [SweepEvent.yieldCard ("4111111111111111|01|2025|123".toList),
        SweepEvent.raiseExc] 100 = ([], 0, []) :=
  ⟨List.mem_cons_of_mem _ (List.mem_cons_self _ _),
    c6_exception_discards_partial _ 100
      (List.mem_cons_of_mem _ (List.mem_cons_self _ _))⟩

/-! ### The accumulation loop of `process_large_text` on a failure-free sweep -/

theorem processEventsGo_yields (max_display_results : Nat) :
    ∀ (cards : List (List Char)) (disp : List (List Char)) (total : Nat) (buf : List Char),
      disp.length ≤ max_display_results →
      processEventsGo max_display_results (cards.map SweepEvent.yieldCard) disp total buf
        = (disp ++ cards.take (max_display_results - disp.length), total + cards.length,
            buf ++ (cards.map (fun c => c ++ ['\n'])).flatten)
  | [], disp, total, buf, _ => by simp [processEventsGo]
  | c :: cards, disp, total, buf, h => by
    simp only [List.map_cons, processEventsGo]
    by_cases hlt : disp.length < max_display_results
    · rw [if_pos hlt]
      have hlen : (disp ++ [c]).length ≤ max_display_results := by
        simp only [List.length_append, List.length_cons, List.length_nil]
        omega
      rw [processEventsGo_yields max_display_results cards (disp ++ [c]) (total + 1)
        (buf ++ c ++ ['\n']) hlen]
      have hsplit : max_display_results - disp.length
          = (max_display_results - (disp ++ [c]).length) + 1 := by
        simp only [List.length_append, List.length_cons, List.length_nil]
        omega
      rw [Prod.mk.injEq, Prod.mk.injEq]
      refine ⟨?_, ?_, ?_⟩
      · rw [hsplit, List.take_succ_cons]
        simp [List.append_assoc]
      · simp only [List.length_cons]
        omega
      · simp [List.append_assoc]
    · rw [if_neg hlt]
      rw [processEventsGo_yields max_display_results cards disp (total + 1)
        (buf ++ c ++ ['\n']) h]
      rw [Prod.mk.injEq, Prod.mk.injEq]
      refine ⟨?_, ?_, ?_⟩
      · have h0 : max_display_results - disp.length = 0 := by omega
        rw [h0, List.take_zero, List.take_zero]
      · simp only [List.length_cons]
        omega
      · simp [List.append_assoc]

set_option maxRecDepth 100000 in
/-- C2: `process_large_text` returns the first `max_display_results` extracted
strings as the display list, the true total number of extracted strings as
the count, and a download buffer holding every extracted string in discovery
order, each followed by a newline — the cap affects only the preview length;
in particular with `max_display_results = 5` on an input yielding 12 distinct
cards it returns 5 display entries, a total count of 12, and a 12-line
buffer. -/
theorem c2_count_consistency :
    (∀ (text : List Char) (include_no_cvv include_trailing_info : Bool)
        (max_display_results : Nat),
      process_large_text text include_no_cvv include_trailing_info max_display_results
        = ((extract_card_details_chunked text 10000 include_no_cvv
              include_trailing_info).take max_display_results,
           (extract_card_details_chunked text 10000 include_no_cvv
              include_trailing_info).length,
           ((extract_card_details_chunked text 10000 include_no_cvv
              include_trailing_info).map (fun c => c ++ ['\n'])).flatten)) ∧
    ((process_large_text ("4000000000000000|01|2025|111\n4000000000000001|01|2025|111\n4000000000000002|01|2025|111\n4000000000000003|01|2025|111\n4000000000000004|01|2025|111\n4000000000000005|01|2025|111\n4000000000000006|01|2025|111\n4000000000000007|01|2025|111\n4000000000000008|01|2025|111\n4000000000000009|01|2025|111\n4111111111111111|02|2026|222\n4222222222222222|03|2027|333".toList)
        false false 5).1.length = 5 ∧
      (process_large_text ("4000000000000000|01|2025|111\n4000000000000001|01|2025|111\n4000000000000002|01|2025|111\n4000000000000003|01|2025|111\n4000000000000004|01|2025|111\n4000000000000005|01|2025|111\n4000000000000006|01|2025|111\n4000000000000007|01|2025|111\n4000000000000008|01|2025|111\n4000000000000009|01|2025|111\n4111111111111111|02|2026|222\n4222222222222222|03|2027|333".toList)
        false false 5).2.1 = 12 ∧
      ((process_large_text ("4000000000000000|01|2025|111\n4000000000000001|01|2025|111\n4000000000000002|01|2025|111\n4000000000000003|01|2025|111\n4000000000000004|01|2025|111\n4000000000000005|01|2025|111\n4000000000000006|01|2025|111\n4000000000000007|01|2025|111\n4000000000000008|01|2025|111\n4000000000000009|01|2025|111\n4111111111111111|02|2026|222\n4222222222222222|03|2027|333".toList)
        false false 5).2.2).count '\n' = 12) := by
  constructor
  · intro text a b maxD
    unfold process_large_text processEvents
    rw [processEventsGo_yields maxD (extract_card_details_chunked text 10000 a b) [] 0 []
      (by simp)]
    simp
  · refine ⟨by decide, by decide, by decide⟩

/-! ### C4: validation boundaries -/

theorem validateParts_four (n m y c : List Char) :
    validateParts [n, m, y, c] FormatType.with_cvv
      = ((isdigitL n && n.length == 16)
        && (isdigitL m && m.length == 2 && decide (1 ≤ toNatL m) && decide (toNatL m ≤ 12))
        && (isdigitL y && y.length == 4 && decide (2020 ≤ toNatL y) && decide (toNatL y ≤ 2040))
        && (isdigitL c && (c.length == 3 || c.length == 4))) := by
  unfold validateParts
  cases hA : (isdigitL n && n.length == 16)
  <;> cases hB : (isdigitL m && m.length == 2
        && decide (1 ≤ toNatL m) && decide (toNatL m ≤ 12))
  <;> cases hC : (isdigitL y && y.length == 4
        && decide (2020 ≤ toNatL y) && decide (toNatL y ≤ 2040))
  <;> simp [hA, hB, hC, List.getD_cons_zero, List.getD_cons_succ]

/-- C4: for every candidate whose other fields are well-formed (a 16-digit
number and a 3-digit CVV), `validate_card_format` rejects the year fields
`2019` and `2041` and accepts `2020` and `2040`, and rejects the month
fields `00` and `13` while accepting `01` and `12`. -/
theorem c4_validation_boundaries (n c : List Char)
    (hn16 : n.length = 16) (hnd : ∀ ch ∈ n, ch.isDigit = true)
    (hc3 : c.length = 3) (hcd : ∀ ch ∈ c, ch.isDigit = true) :
    validate_card_format (n ++ '|' :: ("01".toList ++ '|' :: ("2019".toList ++ '|' :: c)))
        FormatType.with_cvv = false ∧
    validate_card_format (n ++ '|' :: ("01".toList ++ '|' :: ("2041".toList ++ '|' :: c)))
        FormatType.with_cvv = false ∧
    validate_card_format (n ++ '|' :: ("01".toList ++ '|' :: ("2020".toList ++ '|' :: c)))
        FormatType.with_cvv = true ∧
    validate_card_format (n ++ '|' :: ("01".toList ++ '|' :: ("2040".toList ++ '|' :: c)))
        FormatType.with_cvv = true ∧
    validate_card_format (n ++ '|' :: ("00".toList ++ '|' :: ("2025".toList ++ '|' :: c)))
        FormatType.with_cvv = false ∧
    validate_card_format (n ++ '|' :: ("13".toList ++ '|' :: ("2025".toList ++ '|' :: c)))
        FormatType.with_cvv = false ∧
    validate_card_format (n ++ '|' :: ("01".toList ++ '|' :: ("2025".toList ++ '|' :: c)))
        FormatType.with_cvv = true ∧
    validate_card_format (n ++ '|' :: ("12".toList ++ '|' :: ("2025".toList ++ '|' :: c)))
        FormatType.with_cvv = true := by
  have hpipe_n : '|' ∉ n := fun h => digit_not_pipe (hnd '|' h) rfl
  have hpipe_c : '|' ∉ c := fun h => digit_not_pipe (hcd '|' h) rfl
  have hne_n : n ≠ [] := by intro h; rw [h] at hn16; cases hn16
  have hne_c : c ≠ [] := by intro h; rw [h] at hc3; cases hc3
  have hA : (isdigitL n && n.length == 16) = true := by
    unfold isdigitL
    rw [hn16]
    simp [List.all_eq_true, List.isEmpty_iff, hne_n]
    exact hnd
  have hD : (isdigitL c && (c.length == 3 || c.length == 4)) = true := by
    unfold isdigitL
    rw [hc3]
    simp [List.all_eq_true, List.isEmpty_iff, hne_c]
    exact hcd
  have hsp : ∀ M Y : List Char, '|' ∉ M → '|' ∉ Y →
      splitPipe (n ++ '|' :: (M ++ '|' :: (Y ++ '|' :: c))) = [n, M, Y, c] := by
    intro M Y hM hY
    rw [splitPipe_append_pipe n _ hpipe_n, splitPipe_append_pipe M _ hM,
      splitPipe_append_pipe Y _ hY, splitPipe_no_pipe c hpipe_c]
  unfold validate_card_format
  refine ⟨?_, ?_, ?_, ?_, ?_, ?_, ?_, ?_⟩
  · rw [hsp _ _ (by decide) (by decide), validateParts_four, hA, hD]; decide
  · rw [hsp _ _ (by decide) (by decide), validateParts_four, hA, hD]; decide
  · rw [hsp _ _ (by decide) (by decide), validateParts_four, hA, hD]; decide
  · rw [hsp _ _ (by decide) (by decide), validateParts_four, hA, hD]; decide
  · rw [hsp _ _ (by decide) (by decide), validateParts_four, hA, hD]; decide
  · rw [hsp _ _ (by decide) (by decide), validateParts_four, hA, hD]; decide
  · rw [hsp _ _ (by decide) (by decide), validateParts_four, hA, hD]; decide
  · rw [hsp _ _ (by decide) (by decide), validateParts_four, hA, hD]; decide

theorem c4_witness :
    ("4111111111111111".toList.length = 16
      ∧ (∀ ch ∈ "4111111111111111".toList, ch.isDigit = true)
      ∧ "123".toList.length = 3
      ∧ (∀ ch ∈ "123".toList, ch.isDigit = true))
    ∧ validate_card_format ("4111111111111111".toList
        ++ '|' :: ("01".toList ++ '|' :: ("2019".toList ++ '|' :: "123".toList)))
        FormatType.with_cvv = false :=
  ⟨⟨by decide, by decide, by decide, by decide⟩,
    (c4_validation_boundaries "4111111111111111".toList "123".toList
      (by decide) (by decide) (by decide) (by decide)).1⟩

/-- C3 counterexample: the trailing-info match CAN cross a line break.  The
whitespace separator `\s+` of the trailing pattern matches a newline, so on
`4111111111111111|01|2025|\nfoo` the single trailing-info output contains the
newline: its captured text after the third pipe is `\nfoo`, not stopped at
the line end. -/
theorem c3_counterexample :
    extract_card_details_chunked ("4111111111111111|01|2025|\nfoo".toList) 10000 false true
      = ["4111111111111111|01|2025|\nfoo".toList]
    ∧ '\n' ∈ (splitPipe ("4111111111111111|01|2025|\nfoo".toList)).getD 3 [] :=
  ⟨by decide, by decide⟩

/-- C3 (amended): every extractor output is free of `'('` — anything from the
first literal `(` onward is excluded from a trailing match by construction —
and the free-text run after the whitespace separator that follows the third
pipe contains no newline and no carriage return; and the concrete input
`4111111111111111|01|2025| 9.99 USD (abc123) extra` with trailing-info
enabled yields exactly `4111111111111111|01|2025| 9.99 USD`.  (The "never
crosses a line break" part of the original claim is dropped: the whitespace
separator after the third pipe may itself contain a newline; only the
free-text run after it is newline-free.) -/
theorem c3_trailing_exclusion (text : List Char) (chunk_size : Nat)
    (include_no_cvv include_trailing_info : Bool) (o : List Char)
    (ho : o ∈ extract_card_details_chunked text chunk_size include_no_cvv
      include_trailing_info) :
    ('(' ∉ o ∧ ∀ c ∈ freeTextRun o, c ≠ '\n' ∧ c ≠ '\r') ∧
    extract_card_details_chunked
        ("4111111111111111|01|2025| 9.99 USD (abc123) extra".toList) 10000 false true
      = ["4111111111111111|01|2025| 9.99 USD".toList] :=
  ⟨⟨(extract_inv text chunk_size include_no_cvv include_trailing_info).2.1 o ho,
    (extract_inv text chunk_size include_no_cvv include_trailing_info).2.2 o ho⟩,
    by decide⟩

theorem c3_witness :
    ("4111111111111111|01|2025| 9.99 USD".toList
        ∈ extract_card_details_chunked
            ("4111111111111111|01|2025| 9.99 USD (abc123) extra".toList) 10000 false true)
    ∧ (('(' ∉ "4111111111111111|01|2025| 9.99 USD".toList
        ∧ ∀ c ∈ freeTextRun ("4111111111111111|01|2025| 9.99 USD".toList),
            c ≠ '\n' ∧ c ≠ '\r')
        ∧ extract_card_details_chunked
            ("4111111111111111|01|2025| 9.99 USD (abc123) extra".toList) 10000 false true
          = ["4111111111111111|01|2025| 9.99 USD".toList]) :=
  ⟨by decide,
    c3_trailing_exclusion
      ("4111111111111111|01|2025| 9.99 USD (abc123) extra".toList) 10000 false true
      ("4111111111111111|01|2025| 9.99 USD".toList) (by decide)⟩

/-! ### C10: the with-CVV output subsequence is independent of the flags -/

def FlagSim (st1 st2 : ScanState) : Prop :=
  st2.seen = st1.seen.filter endsDigitB ∧ st2.out = st1.out.filter isWithCvvShape

theorem stem_endsDigit_false (s : List Char) (hs : StemShape s) : endsDigitB s = false := by
  unfold endsDigitB
  rw [stem_getLast s hs]
  rfl

theorem runWithCvv_sim : ∀ (ms : List (List Char)) (st1 st2 : ScanState),
    (∀ m ∈ ms, isCardToken m = true) → FlagSim st1 st2 →
    FlagSim (runWithCvv ms st1) (runWithCvv ms st2)
  | [], _, _, _, h => h
  | m :: ms, st1, st2, hms, h => by
    have hm := hms m (List.mem_cons_self m ms)
    have hms' := fun x hx => hms x (List.mem_cons_of_mem m hx)
    have hmem : m ∈ st2.seen ↔ m ∈ st1.seen := by
      rw [h.1, List.mem_filter]
      exact ⟨fun hx => hx.1, fun hx => ⟨hx, cardToken_endsDigit m hm⟩⟩
    simp only [runWithCvv]
    by_cases hg : m ∉ st1.seen ∧ validate_card_format m FormatType.with_cvv = true
    · rw [if_pos hg, if_pos (by rw [hmem]; exact hg)]
      refine runWithCvv_sim ms _ _ hms' ⟨?_, ?_⟩
      · simp only [List.filter_append, h.1]
        rw [List.filter_cons]
        rw [cardToken_endsDigit m hm]
        rfl
      · simp only [List.filter_append, h.2]
        rw [List.filter_cons]
        rw [cardToken_withCvvShape m hm]
        rfl
    · rw [if_neg hg, if_neg (by rw [hmem]; exact hg)]
      exact runWithCvv_sim ms st1 st2 hms' h

theorem runTrailing_simL : ∀ (ms : List (List Char)) (st1 st2 : ScanState),
    (∀ m ∈ ms, TrailMatchShape m) → FlagSim st1 st2 → FlagSim (runTrailing ms st1) st2
  | [], _, _, _, h => h
  | m :: ms, st1, st2, hms, h => by
    have hm := hms m (List.mem_cons_self m ms)
    have hms' := fun x hx => hms x (List.mem_cons_of_mem m hx)
    obtain ⟨s, V, hclean, hs, hV⟩ := trailing_clean_decomp m hm
    have hshape : isWithCvvShape (rstrip m) = false := by
      rw [hclean]; exact stem_space_not_withCvvShape s V hs hV
    simp only [runTrailing]
    by_cases h4 : 4 ≤ (splitPipe (rstrip m)).length
    · rw [if_pos h4]
      by_cases hg : (List.intercalate ['|'] ((splitPipe (rstrip m)).take 3) ++ ['|']) ∉ st1.seen
          ∧ validate_card_format (rstrip m) FormatType.trailing = true
      · rw [if_pos hg]
        refine runTrailing_simL ms _ st2 hms' ⟨?_, ?_⟩
        · simp only [List.filter_append, h.1]
          rw [List.filter_cons]
          have : endsDigitB (List.intercalate ['|'] ((splitPipe (rstrip m)).take 3) ++ ['|'])
              = false := endsDigit_cardKey_false (rstrip m)
          rw [this]
          simp
        · simp only [List.filter_append, h.2]
          rw [List.filter_cons, hshape]
          simp
      · rw [if_neg hg]
        exact runTrailing_simL ms st1 st2 hms' h
    · rw [if_neg h4]
      exact runTrailing_simL ms st1 st2 hms' h

theorem runNoCvv_simL : ∀ (ms : List (List Char)) (st1 st2 : ScanState),
    (∀ m ∈ ms, NoCvvMatchShape m) → FlagSim st1 st2 → FlagSim (runNoCvv ms st1) st2
  | [], _, _, _, h => h
  | m :: ms, st1, st2, hms, h => by
    have hm := hms m (List.mem_cons_self m ms)
    have hms' := fun x hx => hms x (List.mem_cons_of_mem m hx)
    obtain ⟨s, hs, hr, hcl⟩ := noCvv_clean m hm
    simp only [runNoCvv]
    rw [hcl]
    by_cases hg : s ∉ st1.seen ∧ validate_card_format s FormatType.no_cvv = true
    · rw [if_pos hg]
      refine runNoCvv_simL ms _ st2 hms' ⟨?_, ?_⟩
      · simp only [List.filter_append, h.1]
        rw [List.filter_cons, stem_endsDigit_false s hs]
        simp
      · simp only [List.filter_append, h.2]
        rw [List.filter_cons, stem_not_withCvvShape s hs]
        simp
    · rw [if_neg hg]
      exact runNoCvv_simL ms st1 st2 hms' h

theorem runChunk_sim (chunk : List Char) (a b : Bool) (st1 st2 : ScanState)
    (h : FlagSim st1 st2) :
    FlagSim (runChunk chunk a b st1) (runChunk chunk false false st2) := by
  have hcvv := runWithCvv_sim (findall tryWithCvv chunk) st1 st2
    (fun m hm => mem_findall_withCvv chunk m hm) h
  have hgate : FlagSim (runChunkGated chunk b st1) (runChunk chunk false false st2) := by
    unfold runChunkGated runChunk
    simp only [if_neg (Bool.false_ne_true), runChunkGated]
    split
    · exact runTrailing_simL _ _ _ (fun m hm => mem_findall_trailing chunk m hm) hcvv
    · exact hcvv
  unfold runChunk
  split
  · exact runNoCvv_simL _ _ _ (fun m hm => mem_findall_noCvv chunk m hm) hgate
  · exact hgate

theorem runChunks_sim (text : List Char) (cs : Nat) (a b : Bool) :
    ∀ (starts : List Nat) (st1 st2 : ScanState), FlagSim st1 st2 →
      FlagSim (runChunks text cs a b starts st1) (runChunks text cs false false starts st2)
  | [], _, _, h => h
  | i :: is, st1, st2, h =>
    runChunks_sim text cs a b is _ _
      (runChunk_sim ((text.drop i).take (cs + 300)) a b st1 st2 h)

/-- C10: the subsequence of emitted strings of the with-CVV family (exactly
4 pipe-delimited fields with a 3-4 digit fourth field) is identical for every
value of the two flags: it always equals the output of the flags-off run.
Keys added by the flag-gated families end in `'|'` while every with-CVV match
ends in a digit, so enabling a flag can never suppress, reorder or alter a
with-CVV output. -/
theorem c10_withCvv_flag_independence (text : List Char) (chunk_size : Nat)
    (include_no_cvv include_trailing_info : Bool) :
    (extract_card_details_chunked text chunk_size include_no_cvv
        include_trailing_info).filter isWithCvvShape
      = extract_card_details_chunked text chunk_size false false := by
  have h := runChunks_sim text chunk_size include_no_cvv include_trailing_info
    (chunkStarts text.length chunk_size) ⟨[], []⟩ ⟨[], []⟩ ⟨rfl, rfl⟩
  unfold extract_card_details_chunked
  exact h.2.symm

/-! ### C5: capture at a chunk boundary -/

theorem digit_isWordChar {c : Char} (h : c.isDigit = true) : isWordChar c = true := by
  unfold isWordChar
  rw [Char.isAlphanum, h]
  simp

theorem tailWithCvv_at_cvv (cv B : List Char) (hdig : ∀ c ∈ cv, c.isDigit = true)
    (hlen : cv.length = 3 ∨ cv.length = 4)
    (hB : (B.head?.all fun c => !isWordChar c) = true) :
    tailWithCvv (cv ++ B) = some cv.length := by
  rcases hlen with h3 | h4
  · obtain ⟨a, b, c, rfl⟩ := List.length_eq_three.mp h3
    have ha := hdig a (by simp)
    have hb := hdig b (by simp)
    have hc := hdig c (by simp)
    cases B with
    | nil => simp [tailWithCvv, ha, hb, hc]
    | cons c4 B' =>
      have hc4w : isWordChar c4 = false := by
        have h' : (!isWordChar c4) = true := hB
        rwa [Bool.not_eq_true'] at h'
      have hc4d : c4.isDigit = false := by
        cases hd : c4.isDigit
        · rfl
        · rw [digit_isWordChar hd] at hc4w; cases hc4w
      simp [tailWithCvv, ha, hb, hc, hc4d, hc4w]
  · have h4e : ∃ a b c d : Char, cv = [a, b, c, d] := by
      cases cv with
      | nil => simp at h4
      | cons a t1 =>
        cases t1 with
        | nil => simp at h4
        | cons b t2 =>
          cases t2 with
          | nil => simp at h4
          | cons c t3 =>
            cases t3 with
            | nil => simp at h4
            | cons d t4 =>
              cases t4 with
              | nil => exact ⟨a, b, c, d, rfl⟩
              | cons e t5 =>
                simp only [List.length_cons] at h4
                omega
    obtain ⟨a, b, c, d, rfl⟩ := h4e
    have ha := hdig a (by simp)
    have hb := hdig b (by simp)
    have hc := hdig c (by simp)
    have hd := hdig d (by simp)
    cases B with
    | nil => simp [tailWithCvv, ha, hb, hc, hd]
    | cons c5 B' =>
      have hc5w : isWordChar c5 = false := by
        have h' : (!isWordChar c5) = true := hB
        rwa [Bool.not_eq_true'] at h'
      simp [tailWithCvv, ha, hb, hc, hd, hc5w]

theorem tryWithCvv_at_token (prev : Option Char) (w B : List Char)
    (htok : isCardToken w = true) (hprev : boundaryOk prev = true)
    (hB : (B.head?.all fun c => !isWordChar c) = true) :
    tryWithCvv prev (w ++ B) = some w.length := by
  obtain ⟨s, cv, rfl, hs, hne, hdig, hlen⟩ := isCardToken_eq_true w htok
  show tryFam tailWithCvv prev ((s ++ cv) ++ B) = some (s ++ cv).length
  unfold tryFam
  rw [if_pos hprev, List.append_assoc, parseCardStem_complete s (cv ++ B) hs]
  show (tailWithCvv (cv ++ B)).map
      (fun t => ((s ++ (cv ++ B)).length - (cv ++ B).length) + t)
    = some (s ++ cv).length
  rw [tailWithCvv_at_cvv cv B hdig hlen hB]
  simp only [Option.map_some']
  congr 1
  simp only [List.length_append]
  omega

/-- The character just past a successful `\d{3,4}\b` tail is not a word
character (when there is one): every accepting branch of the matcher checks
it or ends the input. -/
theorem tailWithCvv_next : ∀ (rest : List Char) (t : Nat), tailWithCvv rest = some t →
    rest.drop t = [] ∨ ∃ c r', rest.drop t = c :: r' ∧ isWordChar c = false
  | [], t, h => by simp [tailWithCvv] at h
  | [_], t, h => by simp [tailWithCvv] at h
  | [_, _], t, h => by simp [tailWithCvv] at h
  | d1 :: d2 :: d3 :: rest3, t, h => by
    cases rest3 with
    | nil =>
      simp only [tailWithCvv] at h
      split at h
      case isFalse => cases h
      case isTrue =>
        injection h with ht; subst ht
        exact Or.inl rfl
    | cons d4 rest4 =>
      simp only [tailWithCvv] at h
      split at h
      case isFalse => cases h
      case isTrue =>
        by_cases h4 : d4.isDigit = true
        · rw [if_pos h4] at h
          cases rest4 with
          | nil =>
            injection h with ht; subst ht
            exact Or.inl rfl
          | cons c5 rest5 =>
            have h' : (if isWordChar c5 = true then none else some 4) = some t := h
            by_cases h5 : isWordChar c5 = true
            · rw [if_pos h5] at h'; cases h'
            · rw [if_neg h5] at h'
              injection h' with ht; subst ht
              exact Or.inr ⟨c5, rest5, rfl, by rw [Bool.not_eq_true] at h5; exact h5⟩
        · rw [if_neg h4] at h
          by_cases hw : isWordChar d4 = true
          · rw [if_pos hw] at h; cases h
          · rw [if_neg hw] at h
            injection h with ht; subst ht
            exact Or.inr ⟨d4, rest4, rfl, by rw [Bool.not_eq_true] at hw; exact hw⟩

theorem stem_get24 (s : List Char) (hs : StemShape s) : s[24]? = some '|' := by
  obtain ⟨n, m, y, rfl, hn, _, hm, _, hy, _⟩ := hs
  rw [List.getElem?_append_right (by omega), show 24 - n.length = 8 by omega,
    show (8 : Nat) = 7 + 1 from rfl, List.getElem?_cons_succ,
    List.getElem?_append_right (by omega), show 7 - m.length = 5 by omega,
    show (5 : Nat) = 4 + 1 from rfl, List.getElem?_cons_succ,
    List.getElem?_append_right (by omega), show 4 - y.length = 0 by omega]
  rfl

theorem stem_get19 (s : List Char) (hs : StemShape s) : s[19]? = some '|' := by
  obtain ⟨n, m, y, rfl, hn, _, hm, _, hy, _⟩ := hs
  rw [List.getElem?_append_right (by omega), show 19 - n.length = 3 by omega,
    show (3 : Nat) = 2 + 1 from rfl, List.getElem?_cons_succ,
    List.getElem?_append_right (by omega), show 2 - m.length = 0 by omega,
    List.getElem?_cons_zero]

theorem getElem_some_of_lt (l : List Char) (j : Nat) (h : j < l.length) :
    ∃ c, l[j]? = some c := by
  cases hg : l[j]?
  · rw [List.getElem?_eq_none_iff] at hg
    omega
  · exact ⟨_, rfl⟩

/-- Facts about any successful with-CVV match: its length is 28 or 29 and fits
in the text, its offsets 19 and 24 hold pipes, and the character right after
it (when there is one) is not a word character. -/
theorem tryWithCvv_facts (prev : Option Char) (l : List Char) (k : Nat)
    (h : tryWithCvv prev l = some k) :
    28 ≤ k ∧ k ≤ 29 ∧ k ≤ l.length ∧ l[24]? = some '|' ∧ l[19]? = some '|' ∧
      (l.drop k = [] ∨ ∃ c r', l.drop k = c :: r' ∧ isWordChar c = false) := by
  obtain ⟨s, rest, t, rfl, hs, htail, hk⟩ := tryFam_eq_some tailWithCvv prev l k h
  obtain ⟨ht34, htle, _⟩ := tailWithCvv_eq_some rest t htail
  have hslen : s.length = 25 := hs.length
  refine ⟨by omega, by omega, ?_, ?_, ?_, ?_⟩
  · rw [List.length_append]
    omega
  · rw [List.getElem?_append_left (by omega)]
    exact stem_get24 s hs
  · rw [List.getElem?_append_left (by omega)]
    exact stem_get19 s hs
  · have hdrop : (s ++ rest).drop k = rest.drop t := by
      rw [List.drop_append_eq_append_drop,
        List.drop_eq_nil_iff.mpr (show s.length ≤ k by omega),
        show k - s.length = t by omega]
      rfl
    rw [hdrop]
    exact tailWithCvv_next rest t htail

/-- Away from the three pipe offsets 16, 19 and 24, every character of a full
with-CVV token is a digit. -/
theorem token_digit_at (w : List Char) (htok : isCardToken w = true) (i : Nat)
    (hi : i < w.length) (h16 : i ≠ 16) (h19 : i ≠ 19) (h24 : i ≠ 24) :
    ∃ c, w[i]? = some c ∧ c.isDigit = true := by
  obtain ⟨s, cv, rfl, hs, hne, hdig, hlenc⟩ := isCardToken_eq_true w htok
  obtain ⟨n, m, y, hseq, hn, hnd, hm, hmd, hy, hyd⟩ := hs
  subst hseq
  have hw : (n ++ '|' :: (m ++ '|' :: (y ++ ['|']))) ++ cv
      = n ++ '|' :: (m ++ '|' :: (y ++ '|' :: cv)) := by simp
  rw [hw] at hi ⊢
  simp only [List.length_append, List.length_cons, hn, hm, hy] at hi
  by_cases h1 : i < 16
  · rw [List.getElem?_append_left (by omega)]
    obtain ⟨c, hc⟩ := getElem_some_of_lt n i (by omega)
    exact ⟨c, hc, hnd c (List.getElem?_mem hc)⟩
  · rw [List.getElem?_append_right (by omega),
      show i - n.length = (i - 17) + 1 by omega, List.getElem?_cons_succ]
    by_cases h2 : i < 19
    · rw [List.getElem?_append_left (by omega)]
      obtain ⟨c, hc⟩ := getElem_some_of_lt m (i - 17) (by omega)
      exact ⟨c, hc, hmd c (List.getElem?_mem hc)⟩
    · rw [List.getElem?_append_right (by omega),
        show i - 17 - m.length = (i - 20) + 1 by omega, List.getElem?_cons_succ]
      by_cases h3 : i < 24
      · rw [List.getElem?_append_left (by omega)]
        obtain ⟨c, hc⟩ := getElem_some_of_lt y (i - 20) (by omega)
        exact ⟨c, hc, hyd c (List.getElem?_mem hc)⟩
      · rw [List.getElem?_append_right (by omega),
          show i - 20 - y.length = (i - 25) + 1 by omega, List.getElem?_cons_succ]
        obtain ⟨c, hc⟩ := getElem_some_of_lt cv (i - 25) (by omega)
        exact ⟨c, hc, hdig c (List.getElem?_mem hc)⟩

/-- No with-CVV match that starts strictly inside the prefix `P` can reach or
cross the start of the token `w` placed right after `P`: the match would end
right at the token start (where a digit follows, breaking the trailing `\b`),
a few characters into its leading digits (same break), or with one of its
pipes over a digit of the token. -/
theorem tryWithCvv_no_overlap (P w B : List Char) (htok : isCardToken w = true)
    (q len : Nat) (prev : Option Char) (hq : q < P.length)
    (htm : tryWithCvv prev ((P ++ (w ++ B)).drop q) = some len) :
    q + len < P.length := by
  obtain ⟨hk28, hk29, hkle, hp24, hp19, hnext⟩ :=
    tryWithCvv_facts prev ((P ++ (w ++ B)).drop q) len htm
  have hwlen := cardToken_length w htok
  have hlenPWB : (P ++ (w ++ B)).length = P.length + (w.length + B.length) := by
    simp
  have hdlen : ((P ++ (w ++ B)).drop q).length = (P ++ (w ++ B)).length - q :=
    List.length_drop _ _
  have hbr : ∀ p : Nat, ((P ++ (w ++ B)).drop q)[p]? = (P ++ (w ++ B))[q + p]? :=
    fun p => List.getElem?_drop _ q p
  have hW : ∀ i, i < w.length → (P ++ (w ++ B))[P.length + i]? = w[i]? := by
    intro i hiw
    rw [List.getElem?_append_right (by omega),
      show P.length + i - P.length = i by omega,
      List.getElem?_append_left hiw]
  by_contra hlt
  push_neg at hlt
  by_cases hj0 : q + len = P.length
  · rcases hnext with hnil | ⟨c, r', hc, hcw⟩
    · rw [List.drop_eq_nil_iff] at hnil
      omega
    · have h1 : ((P ++ (w ++ B)).drop q)[len]? = some c := by
        have h2 := List.getElem?_drop ((P ++ (w ++ B)).drop q) len 0
        rw [hc, List.getElem?_cons_zero, Nat.add_zero] at h2
        exact h2.symm
      rw [hbr] at h1
      obtain ⟨cw, hcw0, hcwd⟩ := token_digit_at w htok 0 (by omega)
        (by omega) (by omega) (by omega)
      rw [hj0, show P.length = P.length + 0 by omega, hW 0 (by omega), hcw0] at h1
      injection h1 with hce
      rw [hce] at hcwd
      rw [digit_isWordChar hcwd] at hcw
      cases hcw
  · by_cases hd25 : 25 ≤ P.length - q
    · rcases hnext with hnil | ⟨c, r', hc, hcw⟩
      · rw [List.drop_eq_nil_iff] at hnil
        omega
      · have h1 : ((P ++ (w ++ B)).drop q)[len]? = some c := by
          have h2 := List.getElem?_drop ((P ++ (w ++ B)).drop q) len 0
          rw [hc, List.getElem?_cons_zero, Nat.add_zero] at h2
          exact h2.symm
        rw [hbr] at h1
        obtain ⟨cw, hcw0, hcwd⟩ := token_digit_at w htok (q + len - P.length)
          (by omega) (by omega) (by omega) (by omega)
        rw [show q + len = P.length + (q + len - P.length) by omega,
          hW _ (by omega), hcw0] at h1
        injection h1 with hce
        rw [hce] at hcwd
        rw [digit_isWordChar hcwd] at hcw
        cases hcw
    · have hM24 : (P ++ (w ++ B))[q + 24]? = some '|' := by
        rw [← hbr]
        exact hp24
      have hM19 : (P ++ (w ++ B))[q + 19]? = some '|' := by
        rw [← hbr]
        exact hp19
      by_cases h16 : q + 24 - P.length = 16
      · obtain ⟨cw, hcw0, hcwd⟩ := token_digit_at w htok (q + 19 - P.length)
          (by omega) (by omega) (by omega) (by omega)
        rw [show q + 19 = P.length + (q + 19 - P.length) by omega,
          hW _ (by omega), hcw0] at hM19
        injection hM19 with hce
        rw [hce] at hcwd
        exact absurd hcwd (by decide)
      · by_cases h19 : q + 24 - P.length = 19
        · obtain ⟨cw, hcw0, hcwd⟩ := token_digit_at w htok (q + 19 - P.length)
            (by omega) (by omega) (by omega) (by omega)
          rw [show q + 19 = P.length + (q + 19 - P.length) by omega,
            hW _ (by omega), hcw0] at hM19
          injection hM19 with hce
          rw [hce] at hcwd
          exact absurd hcwd (by decide)
        · obtain ⟨cw, hcw0, hcwd⟩ := token_digit_at w htok (q + 24 - P.length)
            (by omega) h16 h19 (by omega)
          rw [show q + 24 = P.length + (q + 24 - P.length) by omega,
            hW _ (by omega), hcw0] at hM24
          injection hM24 with hce
          rw [hce] at hcwd
          exact absurd hcwd (by decide)

theorem head?_take (l : List Char) (k : Nat) (hk : 0 < k) :
    (l.take k).head? = l.head? := by
  cases l with
  | nil => simp
  | cons c t =>
    cases k with
    | zero => omega
    | succ k' => simp

/-- Once the scanner has reached a position at or before the start of the
token (with the previous character recorded faithfully), the token is among
the matches still to come: no earlier match can consume past the token start,
and at the token start the matcher succeeds with exactly the token. -/
theorem findallAux_capture (P w B : List Char) (htok : isCardToken w = true)
    (hP : (P.getLast?.all fun c => !isWordChar c) = true)
    (hB : (B.head?.all fun c => !isWordChar c) = true) :
    ∀ (fuel k : Nat) (prev : Option Char), k ≤ P.length →
      (P ++ (w ++ B)).length - k ≤ fuel →
      prev = (if k = 0 then none else (P ++ (w ++ B))[k - 1]?) →
      w ∈ findallAux tryWithCvv fuel prev ((P ++ (w ++ B)).drop k) := by
  intro fuel
  induction fuel with
  | zero =>
    intro k prev hk hfuel _
    have hwlen := cardToken_length w htok
    have hlenPWB : (P ++ (w ++ B)).length = P.length + (w.length + B.length) := by
      simp
    omega
  | succ fuel ih =>
    intro k prev hk hfuel hprev
    have hwlen := cardToken_length w htok
    have hlenPWB : (P ++ (w ++ B)).length = P.length + (w.length + B.length) := by
      simp
    by_cases hkP : k = P.length
    · subst hkP
      have hdropP : (P ++ (w ++ B)).drop P.length = w ++ B := List.drop_left P (w ++ B)
      have hbnd : boundaryOk prev = true := by
        by_cases h0 : P.length = 0
        · rw [hprev, if_pos h0]
          rfl
        · have hPne : P ≠ [] := by
            intro hP0
            rw [hP0] at h0
            exact h0 rfl
          have hPlast : (P ++ (w ++ B))[P.length - 1]? = P.getLast? := by
            rw [List.getElem?_append_left (by omega)]
            exact (List.getLast?_eq_getElem? P).symm
          rw [hprev, if_neg h0, hPlast]
          obtain ⟨c, hc, _⟩ := getLast?_mem_of_ne_nil P hPne
          rw [hc]
          have h' : ((some c).all fun x => !isWordChar x) = true := by
            rw [← hc]
            exact hP
          exact h'
      have htm : tryWithCvv prev (w ++ B) = some w.length :=
        tryWithCvv_at_token prev w B htok hbnd hB
      rw [hdropP]
      obtain ⟨w0, wrest, hwc⟩ := List.exists_cons_of_ne_nil
        (show w ≠ [] by intro h; rw [h] at hwlen; simp at hwlen)
      rw [hwc] at htm ⊢
      rw [show (w0 :: wrest) ++ B = w0 :: (wrest ++ B) from rfl] at htm ⊢
      rw [show (w0 :: wrest).length = wrest.length + 1 from List.length_cons w0 wrest] at htm
      rw [findallAux_cons_eq tryWithCvv fuel prev w0 (wrest ++ B) wrest.length htm]
      have htake : (w0 :: (wrest ++ B)).take (wrest.length + 1) = w0 :: wrest := by
        rw [show w0 :: (wrest ++ B) = (w0 :: wrest) ++ B from rfl,
          show wrest.length + 1 = (w0 :: wrest).length from (List.length_cons w0 wrest).symm]
        exact List.take_left _ _
      rw [htake]
      exact List.mem_cons_self _ _
    · have hkP' : k < P.length := by omega
      have hne : (P ++ (w ++ B)).drop k ≠ [] := by
        rw [Ne, List.drop_eq_nil_iff]
        have hwlen28 := hwlen.1
        omega
      obtain ⟨c, rest, heq⟩ := List.exists_cons_of_ne_nil hne
      rcases htm : tryWithCvv prev ((P ++ (w ++ B)).drop k) with _ | len
      · rw [heq] at htm ⊢
        rw [findallAux_cons_fail tryWithCvv fuel prev c rest htm]
        have hprev' : some c = (if k + 1 = 0 then none else (P ++ (w ++ B))[k + 1 - 1]?) := by
          rw [if_neg (by omega)]
          have h2 := List.getElem?_drop (P ++ (w ++ B)) k 0
          rw [Nat.add_zero, heq, List.getElem?_cons_zero] at h2
          exact h2
        have hrest : (P ++ (w ++ B)).drop (k + 1) = rest := by
          have h3 := congrArg (List.drop 1) heq
          rw [List.drop_drop] at h3
          simpa using h3
        rw [← hrest]
        exact ih (k + 1) (some c) (by omega) (by omega) hprev'
      · cases len with
        | zero =>
          obtain ⟨hk28, _⟩ := tryWithCvv_facts prev _ 0 htm
          omega
        | succ n =>
          have hno := tryWithCvv_no_overlap P w B htok k (n + 1) prev hkP' htm
          rw [heq] at htm ⊢
          rw [findallAux_cons_eq tryWithCvv fuel prev c rest n htm]
          apply List.mem_cons_of_mem
          have hprev' : (c :: rest)[n]? = (if k + (n + 1) = 0 then none
              else (P ++ (w ++ B))[k + (n + 1) - 1]?) := by
            rw [if_neg (by omega), show k + (n + 1) - 1 = k + n by omega]
            have h2 := List.getElem?_drop (P ++ (w ++ B)) k n
            rw [heq] at h2
            exact h2
          have hdropeq : (c :: rest).drop (n + 1) = (P ++ (w ++ B)).drop (k + (n + 1)) := by
            have h3 := congrArg (List.drop (n + 1)) heq
            rw [List.drop_drop] at h3
            exact h3.symm
          rw [hdropeq]
          exact ih (k + (n + 1)) ((c :: rest)[n]?) (by omega) (by omega) hprev'

/-- A full with-CVV token preceded by anything ending in a non-word character
(or nothing) and followed by anything starting with a non-word character (or
nothing) is found by the scan of the whole string. -/
theorem findall_capture_general (P w B : List Char) (htok : isCardToken w = true)
    (hP : (P.getLast?.all fun c => !isWordChar c) = true)
    (hB : (B.head?.all fun c => !isWordChar c) = true) :
    w ∈ findall tryWithCvv (P ++ (w ++ B)) := by
  unfold findall
  have h := findallAux_capture P w B htok hP hB (P ++ (w ++ B)).length 0 none
    (by omega) (by omega) (by rw [if_pos rfl])
  simpa using h

/-! ### Output monotonicity of the scan -/

theorem runWithCvv_out_mono : ∀ (ms : List (List Char)) (st : ScanState),
    ∃ d, (runWithCvv ms st).out = st.out ++ d
  | [], st => ⟨[], by simp [runWithCvv]⟩
  | m :: ms, st => by
    simp only [runWithCvv]
    by_cases hg : m ∉ st.seen ∧ validate_card_format m FormatType.with_cvv = true
    · rw [if_pos hg]
      obtain ⟨d, hd⟩ := runWithCvv_out_mono ms ⟨st.seen ++ [m], st.out ++ [m]⟩
      exact ⟨[m] ++ d, by rw [hd]; simp⟩
    · rw [if_neg hg]
      exact runWithCvv_out_mono ms st

theorem runTrailing_out_mono : ∀ (ms : List (List Char)) (st : ScanState),
    ∃ d, (runTrailing ms st).out = st.out ++ d
  | [], st => ⟨[], by simp [runTrailing]⟩
  | m :: ms, st => by
    simp only [runTrailing]
    by_cases h4 : 4 ≤ (splitPipe (rstrip m)).length
    · rw [if_pos h4]
      by_cases hg : (List.intercalate ['|'] ((splitPipe (rstrip m)).take 3) ++ ['|']) ∉ st.seen
          ∧ validate_card_format (rstrip m) FormatType.trailing = true
      · rw [if_pos hg]
        obtain ⟨d, hd⟩ := runTrailing_out_mono ms
          ⟨st.seen ++ [List.intercalate ['|'] ((splitPipe (rstrip m)).take 3) ++ ['|']],
            st.out ++ [rstrip m]⟩
        exact ⟨[rstrip m] ++ d, by rw [hd]; simp⟩
      · rw [if_neg hg]
        exact runTrailing_out_mono ms st
    · rw [if_neg h4]
      exact runTrailing_out_mono ms st

theorem runNoCvv_out_mono : ∀ (ms : List (List Char)) (st : ScanState),
    ∃ d, (runNoCvv ms st).out = st.out ++ d
  | [], st => ⟨[], by simp [runNoCvv]⟩
  | m :: ms, st => by
    simp only [runNoCvv]
    by_cases hg : (if (rstrip m).getLast? = some '|' then rstrip m else rstrip m ++ ['|'])
        ∉ st.seen
      ∧ validate_card_format
          (if (rstrip m).getLast? = some '|' then rstrip m else rstrip m ++ ['|'])
          FormatType.no_cvv = true
    · rw [if_pos hg]
      obtain ⟨d, hd⟩ := runNoCvv_out_mono ms _
      exact ⟨[if (rstrip m).getLast? = some '|' then rstrip m else rstrip m ++ ['|']] ++ d,
        by rw [hd]; simp⟩
    · rw [if_neg hg]
      exact runNoCvv_out_mono ms st

theorem runChunk_out_mono (chunk : List Char) (a b : Bool) (st : ScanState) :
    ∃ d, (runChunk chunk a b st).out = st.out ++ d := by
  unfold runChunk runChunkGated
  obtain ⟨d1, hd1⟩ := runWithCvv_out_mono (findall tryWithCvv chunk) st
  have hgate : ∃ d, (if b = true then
      runTrailing (findall tryTrailing chunk) (runWithCvv (findall tryWithCvv chunk) st)
      else runWithCvv (findall tryWithCvv chunk) st).out = st.out ++ d := by
    split
    · obtain ⟨d2, hd2⟩ := runTrailing_out_mono (findall tryTrailing chunk)
        (runWithCvv (findall tryWithCvv chunk) st)
      exact ⟨d1 ++ d2, by rw [hd2, hd1, List.append_assoc]⟩
    · exact ⟨d1, hd1⟩
  obtain ⟨d2, hd2⟩ := hgate
  split
  · obtain ⟨d3, hd3⟩ := runNoCvv_out_mono (findall tryNoCvv chunk) _
    exact ⟨d2 ++ d3, by rw [hd3, hd2, List.append_assoc]⟩
  · exact ⟨d2, hd2⟩

theorem runChunks_out_mono (text : List Char) (cs : Nat) (a b : Bool) :
    ∀ (starts : List Nat) (st : ScanState),
      ∃ d, (runChunks text cs a b starts st).out = st.out ++ d
  | [], st => ⟨[], by simp [runChunks]⟩
  | i :: is, st => by
    simp only [runChunks]
    obtain ⟨d1, hd1⟩ := runChunk_out_mono ((text.drop i).take (cs + 300)) a b st
    obtain ⟨d2, hd2⟩ := runChunks_out_mono text cs a b is
      (runChunk ((text.drop i).take (cs + 300)) a b st)
    exact ⟨d1 ++ d2, by rw [hd2, hd1, List.append_assoc]⟩

/-! ### Completeness: a validated with-CVV match found in a chunk is in the
final output -/

theorem seen_token_mem_out (st : ScanState) (hinv : ScanInv st) (w : List Char)
    (htok : isCardToken w = true) (hw : w ∈ st.seen) : w ∈ st.out := by
  rw [hinv.1] at hw
  obtain ⟨o, ho, hko⟩ := List.mem_map.mp hw
  by_cases hsh : isWithCvvShape o = true
  · have hk : keyOf o = o := by unfold keyOf; rw [hsh]; simp
    rw [hk] at hko
    exact hko ▸ ho
  · have hk : keyOf o = cardKey o :=
      keyOf_eq_cardKey_of_not_withCvv o (Bool.eq_false_iff.mpr hsh)
    rw [hk] at hko
    have h1 : endsDigitB (cardKey o) = false := endsDigit_cardKey_false o
    have h2 : endsDigitB w = true := cardToken_endsDigit w htok
    rw [hko] at h1
    rw [h1] at h2
    cases h2

theorem runWithCvv_mem : ∀ (ms : List (List Char)) (st : ScanState) (w : List Char),
    (∀ m ∈ ms, isCardToken m = true) → ScanInv st → w ∈ ms →
    isCardToken w = true → validate_card_format w FormatType.with_cvv = true →
    w ∈ (runWithCvv ms st).out
  | [], _, _, _, _, hw, _, _ => absurd hw (List.not_mem_nil _)
  | m :: ms, st, w, hms, hinv, hw, htok, hval => by
    have hm := hms m (List.mem_cons_self m ms)
    have hms' := fun x hx => hms x (List.mem_cons_of_mem m hx)
    simp only [runWithCvv]
    by_cases hg : m ∉ st.seen ∧ validate_card_format m FormatType.with_cvv = true
    · rw [if_pos hg]
      rcases List.mem_cons.mp hw with rfl | hw'
      · obtain ⟨d, hd⟩ := runWithCvv_out_mono ms ⟨st.seen ++ [w], st.out ++ [w]⟩
        rw [hd]
        simp
      · exact runWithCvv_mem ms _ w hms'
          (emit_inv st m m (cardToken_keyOf m hm).symm hg.1 (cardToken_no_paren m hm)
            (cardToken_freeText m hm) hinv)
          hw' htok hval
    · rw [if_neg hg]
      rcases List.mem_cons.mp hw with rfl | hw'
      · have hseen : w ∈ st.seen := by
          by_contra hns
          exact hg ⟨hns, hval⟩
        have hout : w ∈ st.out := seen_token_mem_out st hinv w htok hseen
        obtain ⟨d, hd⟩ := runWithCvv_out_mono ms st
        rw [hd]
        exact List.mem_append_left d hout
      · exact runWithCvv_mem ms st w hms' hinv hw' htok hval

theorem runChunk_mem (chunk : List Char) (a b : Bool) (st : ScanState) (w : List Char)
    (hinv : ScanInv st) (hw : w ∈ findall tryWithCvv chunk)
    (htok : isCardToken w = true) (hval : validate_card_format w FormatType.with_cvv = true) :
    w ∈ (runChunk chunk a b st).out := by
  have h1 : w ∈ (runWithCvv (findall tryWithCvv chunk) st).out :=
    runWithCvv_mem (findall tryWithCvv chunk) st w
      (fun m hm => mem_findall_withCvv chunk m hm) hinv hw htok hval
  unfold runChunk runChunkGated
  have hgate : w ∈ (if b = true then
      runTrailing (findall tryTrailing chunk) (runWithCvv (findall tryWithCvv chunk) st)
      else runWithCvv (findall tryWithCvv chunk) st).out := by
    split
    · obtain ⟨d, hd⟩ := runTrailing_out_mono (findall tryTrailing chunk)
        (runWithCvv (findall tryWithCvv chunk) st)
      rw [hd]
      exact List.mem_append_left d h1
    · exact h1
  split
  · obtain ⟨d, hd⟩ := runNoCvv_out_mono (findall tryNoCvv chunk) _
    rw [hd]
    exact List.mem_append_left d hgate
  · exact hgate

theorem runChunks_mem (text : List Char) (cs : Nat) (a b : Bool) (w : List Char)
    (htok : isCardToken w = true)
    (hval : validate_card_format w FormatType.with_cvv = true) :
    ∀ (starts : List Nat) (st : ScanState), ScanInv st → ∀ i0 ∈ starts,
      w ∈ findall tryWithCvv ((text.drop i0).take (cs + 300)) →
      w ∈ (runChunks text cs a b starts st).out
  | [], _, _, i0, hi0, _ => absurd hi0 (List.not_mem_nil i0)
  | i :: is, st, hinv, i0, hi0, hfind => by
    simp only [runChunks]
    rcases List.mem_cons.mp hi0 with rfl | hi0'
    · have h1 := runChunk_mem ((text.drop i0).take (cs + 300)) a b st w hinv hfind htok hval
      obtain ⟨d, hd⟩ := runChunks_out_mono text cs a b is
        (runChunk ((text.drop i0).take (cs + 300)) a b st)
      rw [hd]
      exact List.mem_append_left d h1
    · exact runChunks_mem text cs a b w htok hval is _
        (runChunk_inv ((text.drop i).take (cs + 300)) a b st hinv) i0 hi0' hfind

theorem mem_chunkStarts (n cs q : Nat) (hcs : 0 < cs) (hq : q * cs < n) :
    q * cs ∈ chunkStarts n cs := by
  unfold chunkStarts
  refine List.mem_map.mpr ⟨q, ?_, rfl⟩
  rw [List.mem_range]
  have h1 : q + 1 ≤ (n + cs - 1) / cs := by
    rw [Nat.le_div_iff_mul_le hcs]
    have h2 : q * cs + cs ≤ n + cs - 1 := by omega
    calc (q + 1) * cs = q * cs + cs := by ring
      _ ≤ n + cs - 1 := h2
  omega

theorem count_one_of_nodup_mem {α : Type} [BEq α] [LawfulBEq α] (l : List α) (w : α)
    (hnd : l.Nodup) (hm : w ∈ l) : l.count w = 1 := by
  induction l with
  | nil => cases hm
  | cons x xs ih =>
    rw [List.count_cons]
    rcases List.mem_cons.mp hm with rfl | hmx
    · have hnx : w ∉ xs := (List.nodup_cons.mp hnd).1
      rw [List.count_eq_zero_of_not_mem hnx]
      simp
    · have hne : ¬(w = x) := by
        intro h
        subst h
        exact (List.nodup_cons.mp hnd).1 hmx
      rw [ih (List.nodup_cons.mp hnd).2 hmx]
      simp [hne]
      exact fun h => hne h.symm

/-- C5: a valid with-CVV candidate that straddles a chunk boundary with its
start inside chunk `q` appears exactly once in the output, whatever else the
text contains, provided only that the characters adjacent to the candidate —
the last one before it and the first one after it, when they exist — are not
word characters (the word boundaries the pattern itself demands).  The
300-character forward overlap captures the candidate in full in the chunk it
starts in, no other match can consume into it, and deduplication prevents a
second emission from the overlapping reads. -/
theorem c5_chunk_boundary (pre w suf : List Char) (cs q : Nat)
    (include_no_cvv include_trailing_info : Bool)
    (hcs : 0 < cs)
    (hpre : (pre.getLast?.all fun c => !isWordChar c) = true)
    (hsuf : (suf.head?.all fun c => !isWordChar c) = true)
    (htok : isCardToken w = true)
    (hval : validate_card_format w FormatType.with_cvv = true)
    (hstart_lo : q * cs ≤ pre.length)
    (hstart_hi : pre.length < (q + 1) * cs)
    (hstraddle : (q + 1) * cs < pre.length + w.length) :
    (extract_card_details_chunked (pre ++ (w ++ suf)) cs include_no_cvv
      include_trailing_info).count w = 1 := by
  have hwlen : 28 ≤ w.length ∧ w.length ≤ 29 := cardToken_length w htok
  have hAlen : (pre.drop (q * cs)).length = pre.length - q * cs := List.length_drop _ _
  have hAlt : (pre.drop (q * cs)).length < cs := by
    rw [hAlen]
    have : (q + 1) * cs = q * cs + cs := by ring
    omega
  have hslice : ((pre ++ (w ++ suf)).drop (q * cs)).take (cs + 300)
      = pre.drop (q * cs)
        ++ (w ++ suf.take (cs + 300 - (pre.drop (q * cs)).length - w.length)) := by
    rw [List.drop_append_eq_append_drop,
      show q * cs - pre.length = 0 by omega, List.drop_zero,
      List.take_append_eq_append_take,
      List.take_of_length_le (show (pre.drop (q * cs)).length ≤ cs + 300 by omega),
      List.take_append_eq_append_take,
      List.take_of_length_le (show w.length ≤ cs + 300 - (pre.drop (q * cs)).length by omega)]
  have hP' : ((pre.drop (q * cs)).getLast?.all fun c => !isWordChar c) = true := by
    by_cases hA0 : pre.drop (q * cs) = []
    · rw [hA0]
      rfl
    · have hlast : (pre.drop (q * cs)).getLast? = pre.getLast? := by
        conv_rhs => rw [← List.take_append_drop (q * cs) pre]
        rw [List.getLast?_append_of_ne_nil _ hA0]
      rw [hlast]
      exact hpre
  have hB' : ((suf.take (cs + 300 - (pre.drop (q * cs)).length - w.length)).head?.all
      fun c => !isWordChar c) = true := by
    rw [head?_take suf _ (by omega)]
    exact hsuf
  have hfind : w ∈ findall tryWithCvv
      (((pre ++ (w ++ suf)).drop (q * cs)).take (cs + 300)) := by
    rw [hslice]
    exact findall_capture_general (pre.drop (q * cs)) w _ htok hP' hB'
  have hlen_text : (pre ++ (w ++ suf)).length = pre.length + w.length + suf.length := by
    simp [List.length_append]
    omega
  have hi0 : q * cs ∈ chunkStarts (pre ++ (w ++ suf)).length cs := by
    apply mem_chunkStarts _ cs q hcs
    rw [hlen_text]
    omega
  have hmem : w ∈ extract_card_details_chunked (pre ++ (w ++ suf)) cs include_no_cvv
      include_trailing_info :=
    runChunks_mem (pre ++ (w ++ suf)) cs include_no_cvv include_trailing_info w htok hval
      (chunkStarts (pre ++ (w ++ suf)).length cs) ⟨[], []⟩
      ⟨rfl, List.nodup_nil, by simp, by simp⟩ (q * cs) hi0 hfind
  have hnodup : (extract_card_details_chunked (pre ++ (w ++ suf)) cs include_no_cvv
      include_trailing_info).Nodup :=
    (extract_inv (pre ++ (w ++ suf)) cs include_no_cvv include_trailing_info).1.of_map
  exact count_one_of_nodup_mem _ w hnodup hmem

theorem c5_witness :
    (0 < 20
      ∧ (("4222222222222222|02|2026|456 q ".toList.getLast?.all
            fun c => !isWordChar c) = true)
      ∧ ((" 4333333333333333|03|2027|789".toList.head?.all
            fun c => !isWordChar c) = true)
      ∧ isCardToken ("4111111111111111|12|2030|123".toList) = true
      ∧ validate_card_format ("4111111111111111|12|2030|123".toList)
          FormatType.with_cvv = true
      ∧ 1 * 20 ≤ ("4222222222222222|02|2026|456 q ".toList).length
      ∧ ("4222222222222222|02|2026|456 q ".toList).length < (1 + 1) * 20
      ∧ (1 + 1) * 20 < ("4222222222222222|02|2026|456 q ".toList).length
          + ("4111111111111111|12|2030|123".toList).length)
    ∧ (extract_card_details_chunked
        ("4222222222222222|02|2026|456 q ".toList
          ++ ("4111111111111111|12|2030|123".toList
            ++ " 4333333333333333|03|2027|789".toList))
        20 false false).count ("4111111111111111|12|2030|123".toList) = 1 :=
  ⟨⟨by decide, by decide, by decide, by decide, by decide, by decide, by decide, by decide⟩,
    c5_chunk_boundary ("4222222222222222|02|2026|456 q ".toList)
      ("4111111111111111|12|2030|123".toList)
      (" 4333333333333333|03|2027|789".toList)
      20 1 false false (by decide) (by decide) (by decide) (by decide) (by decide)
      (by decide) (by decide) (by decide)⟩
